import Mathlib

/-!
Verification of the multilayout resolution core of `layouts.py`.

The Python code mutates `Key` objects in place and tracks key membership by
object identity.  We therefore embed the program over an explicit heap: a key
is named by a `Nat` id (its index into the heap list), a keyboard is the list
of ids of its keys in order, and every mutating pass threads the heap
explicitly.  Python `dict`s (which preserve insertion order) are embedded as
association lists, and Python truthiness checks (`if not d.get(k)`) are
embedded faithfully, including the fact that the integer `0` is falsy.
-/

namespace Layouts

/-- A KLE key as the external decoder hands it to `layouts.py`: coordinates and
rotation data are exact rationals, labels are a fixed-slot list of strings
(empty string where absent). -/
structure Key where
  x : ℚ := 0
  y : ℚ := 0
  width : ℚ := 1
  height : ℚ := 1
  rotation_x : ℚ := 0
  rotation_y : ℚ := 0
  rotation_angle : ℚ := 0
  labels : List String := []
  decal : Bool := false
  deriving Repr, DecidableEq, Inhabited

/-- Label slot access: Python keys always carry a fixed-length label list with
empty strings in unused slots, so out-of-range access is modelled as `""`. -/
def lbl (k : Key) (i : Nat) : String := k.labels.getD i ""

/-- Python `str.isnumeric` on the ASCII digit strings the labels use. -/
def pyIsNumeric (s : String) : Bool := !s.data.isEmpty && s.data.all Char.isDigit

/-- Python `int` on a digit string. -/
def pyInt (s : String) : Nat := s.data.foldl (fun a c => a * 10 + (c.toNat - 48)) 0

/-- The failure conditions the Python code can raise.  The first four are the
exceptions of `layouts.py` itself; `keyError` and `valueError` stand for the
`KeyError` of a failed `dict` subscript and the `ValueError` of `min` over an
empty sequence. -/
inductive Err where
  | malformedMultilayout
  | malformedMatrix
  | arityMismatch
  | indexOutOfRange
  | keyError
  | valueError
  deriving Repr, DecidableEq

/-- The heap of key objects; a key id is an index into this list. -/
abbrev Heap := List Key

/-- Dereference a key id. -/
def getKey (h : Heap) (i : Nat) : Key := h.getD i default

/-- Overwrite the key object at an id (in-place mutation in Python). -/
def setKey (h : Heap) (i : Nat) (k : Key) : Heap := h.set i k

/-- `extract_ml_val_ndx` (layouts.py lines 9-23): read the multilayout value
label (slot 3) and the multilayout index label (slot 5); raise unless both are
numeric; return `(val, ndx)` in that order. -/
def extract_ml_val_ndx (key : Key) : Except Err (Nat × Nat) :=
  let val_lbl := lbl key 3
  let ndx_lbl := lbl key 5
  if pyIsNumeric val_lbl && pyIsNumeric ndx_lbl then
    Except.ok (pyInt val_lbl, pyInt ndx_lbl)
  else
    Except.error Err.malformedMultilayout

/-- `extract_row_col` (lines 26-43): read the matrix row label (slot 9) and
column label (slot 11); raise unless both are numeric. -/
def extract_row_col (key : Key) : Except Err (Nat × Nat) :=
  let row_lbl := lbl key 9
  let col_lbl := lbl key 11
  if pyIsNumeric row_lbl && pyIsNumeric col_lbl then
    Except.ok (pyInt row_lbl, pyInt col_lbl)
  else
    Except.error Err.malformedMatrix

/-- `get_multilayout_keys` (lines 46-53): keys whose value or index label slot
is non-empty, each eagerly validated with `extract_ml_val_ndx`. -/
def get_multilayout_keys (h : Heap) : List Nat → Except Err (List Nat)
  | [] => Except.ok []
  | i :: rest =>
    let k := getKey h i
    if !(lbl k 3).isEmpty || !(lbl k 5).isEmpty then
      match extract_ml_val_ndx k with
      | Except.error e => Except.error e
      | Except.ok _ =>
        match get_multilayout_keys h rest with
        | Except.error e => Except.error e
        | Except.ok l => Except.ok (i :: l)
    else get_multilayout_keys h rest

/-- Insertion-order association-list lookup (Python `dict.get`). -/
def alGet {β : Type} : List (Nat × β) → Nat → Option β
  | [], _ => none
  | p :: rest, k => if p.1 = k then some p.2 else alGet rest k

/-- Insertion-order association-list store (Python `dict` subscript
assignment): an existing key keeps its position, a new key is appended. -/
def alSet {β : Type} : List (Nat × β) → Nat → β → List (Nat × β)
  | [], k, v => [(k, v)]
  | p :: rest, k, v => if p.1 = k then (k, v) :: rest else p :: alSet rest k v

/-- The per-group value dict: multilayout value ↦ bucket of key ids. -/
abbrev ValDict := List (Nat × List Nat)

/-- The multilayout dict: group ↦ value dict.  In the Python code the same
`dict` also later receives the string keys "offsets" and "max"; those are kept
as separate state components in this embedding. -/
abbrev MLDict := List (Nat × ValDict)

/-- Lines 97-104: create the bucket on first sight, then append the key unless
it is already in the bucket. -/
def valDictAdd (vals : ValDict) (v i : Nat) : ValDict :=
  match alGet vals v with
  | none => alSet vals v [i]
  | some b => if b.contains i then vals else alSet vals v (b ++ [i])

/-- Lines 93-104: create the group dict on first sight (the Python test
`if not ml_dict.get(ml_ndx)` also fires on an empty dict, which behaves the
same), then add to the value bucket. -/
def mlDictAdd (d : MLDict) (n v i : Nat) : MLDict :=
  alSet d n (valDictAdd ((alGet d n).getD []) v i)

/-- Lines 85-104 (and identically 181-200): build the multilayout dict,
skipping encoder-marked keys.  Note the Python caller binds
`ml_ndx, ml_val = extract_ml_val_ndx(key)`, i.e. the pair `(val, ndx)`
returned by the extractor is unpacked in swapped order: the outer dict key is
the slot-3 value and the inner dict key is the slot-5 index. -/
def buildMLDict (h : Heap) : List Nat → MLDict → Except Err MLDict
  | [], d => Except.ok d
  | i :: rest, d =>
    let k := getKey h i
    if lbl k 4 = "e" then buildMLDict h rest d
    else
      match extract_ml_val_ndx k with
      | Except.error e => Except.error e
      | Except.ok (v, n) => buildMLDict h rest (mlDictAdd d v n i)

/-- Lines 78-82 (and 173-177): the non-multilayout keys, with encoder-marked
keys dropped. -/
def nonMLKeys (h : Heap) (kbd mlids : List Nat) : List Nat :=
  (kbd.filter (fun i => !mlids.contains i)).filter (fun i => lbl (getKey h i) 4 != "e")

/-- Modelled from the spec: the external helper `min_x_y` (module `util`, not
under src/) returns the componentwise minimum x and minimum y over a key
list; Python `min` over an empty sequence raises, modelled as `valueError`. -/
def min_x_y (h : Heap) : List Nat → Except Err (ℚ × ℚ)
  | [] => Except.error Err.valueError
  | i :: rest =>
    Except.ok (rest.foldl (fun p j => (min p.1 (getKey h j).x, min p.2 (getKey h j).y))
      ((getKey h i).x, (getKey h i).y))

/-- Reading-order comparison: above-or-left-of, ties broken towards keeping
the earlier key first. -/
def keyLE (h : Heap) (a b : Nat) : Bool :=
  decide ((getKey h a).y < (getKey h b).y) ||
    (decide ((getKey h a).y = (getKey h b).y) && decide ((getKey h a).x ≤ (getKey h b).x))

/-- Stable insertion of an element behind every already-placed element that
compares less-or-equal to it. -/
def insertSorted (le : Nat → Nat → Bool) (x : Nat) : List Nat → List Nat
  | [] => [x]
  | y :: rest => if le y x then y :: insertSorted le x rest else x :: y :: rest

/-- Modelled from the spec: the external comparator `sort_keys` (module
`serial`, not under src/) applies a stable reading-order sort, top-to-bottom
then left-to-right; realized here as a stable insertion sort. -/
def sort_keys (h : Heap) (ids : List Nat) : List Nat :=
  ids.foldl (fun acc x => insertSorted (keyLE h) x acc) []

/-- Lines 138-145: shift a key by the multilayout offset; for keys with a
non-zero rotation angle the rotation origin moves by the negated offset. -/
def offsetKey (k : Key) (dx dy : ℚ) : Key :=
  { k with
    x := k.x + dx
    y := k.y + dy
    rotation_x := if k.rotation_angle ≠ 0 then k.rotation_x - dx else k.rotation_x
    rotation_y := if k.rotation_angle ≠ 0 then k.rotation_y - dy else k.rotation_y }

/-- Lines 118-148, inner loop of the selection pass for one group: walk the
selected bucket; when the selected index is positive, fetch the memoized
offset (computing it on a cache miss from the value-0 bucket's and the
selected bucket's min-corners in the current heap) and mutate the key; append
every walked key to the output list. -/
def applySelectedKeys (vals : ValDict) (selected_idx : Nat) :
    Heap → List (Nat × (ℚ × ℚ)) → List Nat → List Nat →
    Except Err (Heap × List (Nat × (ℚ × ℚ)) × List Nat)
  | h, offs, qmk, [] => Except.ok (h, offs, qmk)
  | h, offs, qmk, i :: rest =>
    if selected_idx > 0 then
      match alGet offs selected_idx with
      | some (dx, dy) =>
        applySelectedKeys vals selected_idx
          (setKey h i (offsetKey (getKey h i) dx dy)) offs (qmk ++ [i]) rest
      | none =>
        match alGet vals 0 with
        | none => Except.error Err.keyError
        | some b0 =>
          match min_x_y h b0 with
          | Except.error e => Except.error e
          | Except.ok (xmin, ymin) =>
            match alGet vals selected_idx with
            | none => Except.error Err.keyError
            | some bsel =>
              match min_x_y h bsel with
              | Except.error e => Except.error e
              | Except.ok (xv, yv) =>
                let dx := xmin - xv
                let dy := ymin - yv
                applySelectedKeys vals selected_idx
                  (setKey h i (offsetKey (getKey h i) dx dy))
                  (alSet offs selected_idx (dx, dy)) (qmk ++ [i]) rest
    else
      applySelectedKeys vals selected_idx h offs (qmk ++ [i]) rest

/-- Lines 116-148, outer loop of the selection pass: `enumerate(layout_idx)`,
looking up each group and its selected bucket (a missing dict key is a Python
`KeyError`), with a fresh offsets cache per group. -/
def selectionLoop (d : MLDict) : Nat → List Nat → Heap → List Nat →
    Except Err (Heap × List Nat)
  | _, [], h, qmk => Except.ok (h, qmk)
  | gi, s :: rest, h, qmk =>
    match alGet d gi with
    | none => Except.error Err.keyError
    | some vals =>
      match alGet vals s with
      | none => Except.error Err.keyError
      | some bsel =>
        match applySelectedKeys vals s h [] qmk bsel with
        | Except.error e => Except.error e
        | Except.ok (h1, _, qmk1) => selectionLoop d (gi + 1) rest h1 qmk1

/-- Lines 110-113: for each selection position, `ml_dict[option_idx]` (a
missing group number is a `KeyError`) must have more value buckets than the
selected index. -/
def validateIndices (d : MLDict) : Nat → List Nat → Except Err Unit
  | _, [] => Except.ok ()
  | gi, s :: rest =>
    match alGet d gi with
    | none => Except.error Err.keyError
    | some vals =>
      if s ≥ vals.length then Except.error Err.indexOutOfRange
      else validateIndices d (gi + 1) rest

/-- Lines 106-113: the selection length must equal the group count, then each
selected index must be in range. -/
def validateSelection (d : MLDict) (sel : List Nat) : Except Err Unit :=
  if sel.length ≠ d.length then Except.error Err.arityMismatch
  else validateIndices d 0 sel

/-- Lines 150-153: subtract the global min-corner from every listed key (a key
listed twice is shifted twice, as in the Python loop). -/
def normalizePass : Heap → List Nat → ℚ → ℚ → Heap
  | h, [], _, _ => h
  | h, i :: rest, xo, yo =>
    let k := getKey h i
    normalizePass (setKey h i { k with x := k.x - xo, y := k.y - yo }) rest xo yo

/-- `get_specific_layout` (lines 68-157): partition, bucket, validate, apply
the selection with offsets, normalize and sort.  Mutates the caller's keys, so
the updated heap is returned with the resulting id list. -/
def get_specific_layout (h : Heap) (kbd layout_idx : List Nat) :
    Except Err (Heap × List Nat) :=
  match get_multilayout_keys h kbd with
  | Except.error e => Except.error e
  | Except.ok mlids =>
    let qmk0 := nonMLKeys h kbd mlids
    match buildMLDict h (kbd.filter (fun i => mlids.contains i)) [] with
    | Except.error e => Except.error e
    | Except.ok d =>
      match validateSelection d layout_idx with
      | Except.error e => Except.error e
      | Except.ok _ =>
        match selectionLoop d 0 layout_idx h qmk0 with
        | Except.error e => Except.error e
        | Except.ok (h1, qmk) =>
          match min_x_y h1 qmk with
          | Except.error e => Except.error e
          | Except.ok (xo, yo) =>
            let h2 := normalizePass h1 qmk xo yo
            Except.ok (h2, sort_keys h2 qmk)

/-- `get_alternate_layouts` (lines 56-65): resolve each named choice list on
the same keyboard object, threading the mutated heap from call to call. -/
def get_alternate_layouts (kbd : List Nat) :
    Heap → List (String × List Nat) → Except Err (Heap × List (String × List Nat))
  | h, [] => Except.ok (h, [])
  | h, (nm, choices) :: rest =>
    match get_specific_layout h kbd choices with
    | Except.error e => Except.error e
    | Except.ok (h1, ids) =>
      match get_alternate_layouts kbd h1 rest with
      | Except.error e => Except.error e
      | Except.ok (h2, out) => Except.ok (h2, (nm, ids) :: out)

/-- Line 166: `deepcopy` allocates fresh copies of the keyboard's keys at the
end of the heap, in order. -/
def deepcopyKeys (h : Heap) (kbd : List Nat) : Heap × List Nat :=
  (h ++ kbd.map (getKey h), List.range' h.length kbd.length)

/-- Lines 202-265, the winner-selection pass of `get_layout_all`.  State:
heap, the per-group "max" entries, the per-group offsets caches, and the
output list.  The Python guard `if not ml_dict[ml_ndx].get("max")` is falsy
both when no winner is stored yet and when the stored winner is `0`, so the
winner re-selection block re-runs in the latter case. -/
def winnerLoop (d : MLDict) :
    Heap → List (Nat × Nat) → List (Nat × List (Nat × (ℚ × ℚ))) → List Nat → List Nat →
    Except Err (Heap × List (Nat × Nat) × List (Nat × List (Nat × (ℚ × ℚ))) × List Nat)
  | h, maxes, goffs, qmk, [] => Except.ok (h, maxes, goffs, qmk)
  | h, maxes, goffs, qmk, i :: rest =>
    match extract_ml_val_ndx (getKey h i) with
    | Except.error e => Except.error e
    | Except.ok (mlv, mln) =>
      let ml_ndx := mlv
      let ml_val := mln
      match alGet d ml_ndx with
      | none => Except.error Err.keyError
      | some vals =>
        match vals.map (fun p => p.2.length) with
        | [] => Except.error Err.valueError
        | l0 :: lrest =>
          let max_val_len := lrest.foldl max l0
          match alGet vals ml_val with
          | none => Except.error Err.keyError
          | some bcur =>
            let current_is_max := max_val_len = bcur.length
            let all_same_length := lrest.all (fun x => x = l0)
            let step := fun (maxes1 : List (Nat × Nat)) =>
              if alGet maxes1 ml_ndx ≠ some ml_val then
                winnerLoop d h maxes1 goffs qmk rest
              else if ml_val > 0 then
                let offs := (alGet goffs ml_ndx).getD []
                match alGet offs ml_val with
                | some (dx, dy) =>
                  winnerLoop d (setKey h i (offsetKey (getKey h i) dx dy)) maxes1 goffs
                    (qmk ++ [i]) rest
                | none =>
                  match alGet vals 0 with
                  | none => Except.error Err.keyError
                  | some b0 =>
                    match min_x_y h b0 with
                    | Except.error e => Except.error e
                    | Except.ok (xmin, ymin) =>
                      match min_x_y h bcur with
                      | Except.error e => Except.error e
                      | Except.ok (xv, yv) =>
                        let dx := xmin - xv
                        let dy := ymin - yv
                        winnerLoop d (setKey h i (offsetKey (getKey h i) dx dy)) maxes1
                          (alSet goffs ml_ndx (alSet offs ml_val (dx, dy))) (qmk ++ [i]) rest
              else winnerLoop d h maxes1 goffs (qmk ++ [i]) rest
            if alGet maxes ml_ndx = none ∨ alGet maxes ml_ndx = some 0 then
              if all_same_length then step (alSet maxes ml_ndx 0)
              else if current_is_max then step (alSet maxes ml_ndx ml_val)
              else winnerLoop d h maxes goffs qmk rest
            else step maxes

/-- Lines 273: the `(row, col)` pairs of a bucket's keys, in order. -/
def coordsOfBucket (h : Heap) : List Nat → Except Err (List (Nat × Nat))
  | [] => Except.ok []
  | i :: rest =>
    match extract_row_col (getKey h i) with
    | Except.error e => Except.error e
    | Except.ok rc =>
      match coordsOfBucket h rest with
      | Except.error e => Except.error e
      | Except.ok l => Except.ok (rc :: l)

/-- Lines 270-278, the reconciliation pass of `get_layout_all`: a multilayout
key whose matrix coordinate is absent from its group's winner bucket is
appended both to that bucket and to the output, unmodified. -/
def reconcileLoop (h : Heap) (maxes : List (Nat × Nat)) :
    MLDict → List Nat → List Nat → Except Err (MLDict × List Nat)
  | d, qmk, [] => Except.ok (d, qmk)
  | d, qmk, i :: rest =>
    match extract_ml_val_ndx (getKey h i) with
    | Except.error e => Except.error e
    | Except.ok (mlv, _) =>
      let ml_ndx := mlv
      match alGet maxes ml_ndx with
      | none => Except.error Err.keyError
      | some max_val =>
        match alGet d ml_ndx with
        | none => Except.error Err.keyError
        | some vals =>
          match alGet vals max_val with
          | none => Except.error Err.keyError
          | some bucket =>
            match coordsOfBucket h bucket with
            | Except.error e => Except.error e
            | Except.ok matrix_list =>
              match extract_row_col (getKey h i) with
              | Except.error e => Except.error e
              | Except.ok rc =>
                if matrix_list.contains rc then reconcileLoop h maxes d qmk rest
                else
                  reconcileLoop h maxes
                    (alSet d ml_ndx (alSet vals max_val (bucket ++ [i]))) (qmk ++ [i]) rest

/-- `get_layout_all` (lines 161-296): deep-copy the keyboard, bucket the
multilayout keys, run the winner-selection pass, the reconciliation pass and
normalization, and return the copy's heap together with its new key list.
The diagnostic file dump of the source is I/O only and is omitted. -/
def get_layout_all (h : Heap) (kbd : List Nat) : Except Err (Heap × List Nat) :=
  let hc := (deepcopyKeys h kbd).1
  let kbd1 := (deepcopyKeys h kbd).2
  match get_multilayout_keys hc kbd1 with
  | Except.error e => Except.error e
  | Except.ok mlids =>
    let qmk0 := nonMLKeys hc kbd1 mlids
    let mliter := kbd1.filter (fun i => mlids.contains i)
    match buildMLDict hc mliter [] with
    | Except.error e => Except.error e
    | Except.ok d =>
      match winnerLoop d hc [] [] qmk0 mliter with
      | Except.error e => Except.error e
      | Except.ok (h1, maxes, _, qmk1) =>
        match reconcileLoop h1 maxes d qmk1 mliter with
        | Except.error e => Except.error e
        | Except.ok (_, qmk2) =>
          match min_x_y h1 qmk2 with
          | Except.error e => Except.error e
          | Except.ok (xo, yo) =>
            let h2 := normalizePass h1 qmk2 xo yo
            Except.ok (h2, sort_keys h2 qmk2)

/-! ### Specification-side definitions used to state the claims -/

/-- The bucket of a (group, value) pair in a multilayout dict, `[]` when the
group or the value is absent. -/
def mlBucket (d : MLDict) (g v : Nat) : List Nat :=
  (alGet ((alGet d g).getD []) v).getD []

/-- Number of value buckets of group `g` in a multilayout dict. -/
def groupCount (d : MLDict) (g : Nat) : Nat := ((alGet d g).getD []).length

/-- First-seen-order deduplication of an id list, skipping ids already seen. -/
def dedupNotIn (seen : List Nat) : List Nat → List Nat
  | [] => []
  | i :: rest =>
    if seen.contains i then dedupNotIn seen rest
    else i :: dedupNotIn (i :: seen) rest

instance {ε α : Type} [DecidableEq ε] [DecidableEq α] : DecidableEq (Except ε α) :=
  fun a b =>
    match a, b with
    | Except.ok x, Except.ok y =>
      if h : x = y then isTrue (by rw [h]) else isFalse (fun hh => h (Except.ok.inj hh))
    | Except.error x, Except.error y =>
      if h : x = y then isTrue (by rw [h]) else isFalse (fun hh => h (Except.error.inj hh))
    | Except.ok _, Except.error _ => isFalse (fun hh => Except.noConfusion hh)
    | Except.error _, Except.ok _ => isFalse (fun hh => Except.noConfusion hh)

/-- The membership test of a (group, value) bucket as the code determines it:
not encoder-marked, and the extractor succeeds with exactly this pair (the
first component, read from label slot 3, is the group under which the callers
bucket the key). -/
def inBucketPred (h : Heap) (g v i : Nat) : Bool :=
  (lbl (getKey h i) 4 != "e") && decide (extract_ml_val_ndx (getKey h i) = Except.ok (g, v))

/-- Grouping as claim C1 words it: bucket every non-encoder multilayout key
under the group identified by its multilayout index (label slot 5, the second
component of the extractor's pair) and, within that group, under the value
identified by its multilayout value (label slot 3, the first component). -/
def buildMLDict_claim (h : Heap) : List Nat → MLDict → Except Err MLDict
  | [], d => Except.ok d
  | i :: rest, d =>
    let k := getKey h i
    if lbl k 4 = "e" then buildMLDict_claim h rest d
    else
      match extract_ml_val_ndx k with
      | Except.error e => Except.error e
      | Except.ok (v, n) => buildMLDict_claim h rest (mlDictAdd d n v i)

/-- The group of a key as the reconciliation pass reads it. -/
def groupOfKey (h : Heap) (i : Nat) : Except Err Nat :=
  match extract_ml_val_ndx (getKey h i) with
  | Except.error e => Except.error e
  | Except.ok (mlv, _) => Except.ok mlv

/-- The reconciliation rule as claim C7 words it: walk the multilayout keys
carrying, per group, the list of matrix coordinates covered so far (initially
the winner bucket's coordinates); a key whose coordinate is already covered is
dropped, otherwise it is kept and its coordinate recorded, so only the first
key per missing coordinate is kept. -/
def reconcile_claim (h : Heap) : List (Nat × List (Nat × Nat)) → List Nat →
    Except Err (List Nat)
  | _, [] => Except.ok []
  | cm, i :: rest =>
    match groupOfKey h i with
    | Except.error e => Except.error e
    | Except.ok g =>
      match alGet cm g with
      | none => Except.error Err.keyError
      | some cs =>
        match extract_row_col (getKey h i) with
        | Except.error e => Except.error e
        | Except.ok rc =>
          if cs.contains rc then reconcile_claim h cm rest
          else
            match reconcile_claim h (alSet cm g (cs ++ [rc])) rest with
            | Except.error e => Except.error e
            | Except.ok l => Except.ok (i :: l)

/-- Correspondence between the reconciliation loop's state (the dict of
buckets plus the per-group winner markers) and the claim-level state (per
group, the list of matrix coordinates covered so far): for every group with a
winner, the winner bucket exists, its coordinates extract cleanly, and they
are exactly the claim-level coordinate list; groups without a winner have no
claim-level entry. -/
def ReconInv (h : Heap) (maxes : List (Nat × Nat)) (d : MLDict)
    (cm : List (Nat × List (Nat × Nat))) : Prop :=
  ∀ g, (alGet maxes g = none → alGet cm g = none) ∧
    (∀ m, alGet maxes g = some m →
      ∃ vals b cs, alGet d g = some vals ∧ alGet vals m = some b ∧
        coordsOfBucket h b = Except.ok cs ∧ alGet cm g = some cs)

/-- A heap evolution confined to the ids of `ids`: the length is unchanged,
keys outside `ids` are untouched, and no key's labels ever change. -/
def EvolvesWithin (ids : List Nat) (h h1 : Heap) : Prop :=
  h1.length = h.length ∧ (∀ j, j ∉ ids → getKey h1 j = getKey h j) ∧
    (∀ j, (getKey h1 j).labels = (getKey h j).labels)

/-! ### Concrete inputs used by counterexamples, code-bug runs and witnesses -/

/-- C1 counterexample input: two keys whose slot-3 labels are "0" and "1" and
whose slot-5 labels are both "0". -/
def hC1 : Heap :=
  [{ labels := ["", "", "", "0", "", "0"] }, { labels := ["", "", "", "1", "", "0"] }]

/-- C2 failing input: one group (slot 3 = "0") with value (slot 5) buckets
0 ↦ two keys, 1 ↦ two keys, 2 ↦ one key, the first key in keyboard order
having value 0 and the second value 1; all matrix coordinates distinct. -/
def hC2 : Heap :=
  [{ x := 0, y := 0, labels := ["", "", "", "0", "", "0", "", "", "", "0", "", "0"] },
   { x := 5, y := 0, labels := ["", "", "", "0", "", "1", "", "", "", "0", "", "1"] },
   { x := 1, y := 0, labels := ["", "", "", "0", "", "0", "", "", "", "0", "", "2"] },
   { x := 6, y := 0, labels := ["", "", "", "0", "", "1", "", "", "", "0", "", "3"] },
   { x := 9, y := 0, labels := ["", "", "", "0", "", "2", "", "", "", "0", "", "4"] }]

/-- The multilayout dict the code builds for `hC2`. -/
def dC2 : MLDict := [(0, [(0, [0, 2]), (1, [1, 3]), (2, [4])])]

/-- C3 counterexample input: a single multilayout key whose group number
(slot 3) is 1, so the group dict's only key is 1, not 0. -/
def hC3 : Heap := [{ labels := ["", "", "", "1", "", "0"] }]

/-- C6 failing input: a normal multilayout key and an encoder-marked
multilayout key of the same group and value, with distinct matrix
coordinates. -/
def hC6 : Heap :=
  [{ x := 0, y := 0, labels := ["", "", "", "0", "", "0", "", "", "", "0", "", "0"] },
   { x := 1, y := 0, labels := ["", "", "", "0", "e", "0", "", "", "", "1", "", "1"] }]

/-- C9 input: a plain key and a two-alternative multilayout group whose
value-1 key sits away from the value-0 anchor, so resolving selection `[1]`
moves keys and normalization shifts the output. -/
def hC9 : Heap :=
  [{ x := 3, y := 3, labels := [] },
   { x := 2, y := 2, labels := ["", "", "", "0", "", "0"] },
   { x := 10, y := 10, labels := ["", "", "", "0", "", "1"] }]

/-- C10 separation input: one multilayout key with no matrix labels. -/
def hC10 : Heap := [{ labels := ["", "", "", "0", "", "0"] }]

/-- A small well-formed keyboard used by witnesses: one plain key and one
two-alternative group with matrix labels everywhere. -/
def hW : Heap :=
  [{ x := 0, y := 0, labels := ["", "", "", "", "", "", "", "", "", "5", "", "5"] },
   { x := 1, y := 0, labels := ["", "", "", "0", "", "0", "", "", "", "0", "", "0"] },
   { x := 1, y := 2, rotation_angle := 15, rotation_x := 4, rotation_y := 4,
     labels := ["", "", "", "0", "", "1", "", "", "", "1", "", "0"] },
   { x := 2, y := 2, labels := ["", "", "", "0", "", "1", "", "", "", "1", "", "1"] }]

/-! ### Basic lemmas about the heap and association lists -/

theorem alGet_alSet_self {β : Type} (l : List (Nat × β)) (k : Nat) (v : β) :
    alGet (alSet l k v) k = some v := by
  induction l with
  | nil => simp [alGet, alSet]
  | cons p rest ih =>
    by_cases hp : p.1 = k
    · simp [alGet, alSet, hp]
    · simp [alGet, alSet, hp, ih]

theorem alGet_alSet_ne {β : Type} (l : List (Nat × β)) (k k' : Nat) (v : β)
    (h : k' ≠ k) : alGet (alSet l k v) k' = alGet l k' := by
  induction l with
  | nil => simp [alGet, alSet, Ne.symm h]
  | cons p rest ih =>
    by_cases hp : p.1 = k
    · simp [alGet, alSet, hp, Ne.symm h]
    · by_cases hp' : p.1 = k'
      · simp [alGet, alSet, hp, hp', h]
      · simp [alGet, alSet, hp, hp', ih]

theorem getKey_setKey_self (h : Heap) (i : Nat) (k : Key) (hi : i < h.length) :
    getKey (setKey h i k) i = k := by
  simp [getKey, setKey, List.getD, List.getElem?_set_self hi]

theorem getKey_setKey_ne (h : Heap) (i j : Nat) (k : Key) (hij : j ≠ i) :
    getKey (setKey h i k) j = getKey h j := by
  simp [getKey, setKey, List.getD, List.getElem?_set_ne (Ne.symm hij)]

theorem length_setKey (h : Heap) (i : Nat) (k : Key) :
    (setKey h i k).length = h.length := by
  simp [setKey]

theorem labels_offsetKey (k : Key) (dx dy : ℚ) : (offsetKey k dx dy).labels = k.labels := by
  simp [offsetKey]

/- Mathlib marks the core rational arithmetic irreducible; concrete runs of the
embedding are evaluated by `decide`, so restore default reducibility here. -/
attribute [local semireducible] Rat.sub Rat.add Rat.mul

/-! ### Claim C1 -/

/-- C1, counterexample.  The claim says the grouper buckets a multilayout key
under the group given by its multilayout index (label slot 5) and, inside it,
under its multilayout value (label slot 3).  On `hC1` (two keys with slot-3
labels "0" and "1" and slot-5 labels both "0") that grouping would give one
group 0 with two values, but the code's callers unpack the extractor's
`(val, ndx)` pair in swapped order and produce two groups keyed by the slot-3
labels: key 1 is bucketed under group 1, value 0, not group 0, value 1. -/
theorem C1_counterexample :
    buildMLDict hC1 [0, 1] [] = Except.ok [(0, [(0, [0])]), (1, [(0, [1])])] ∧
    buildMLDict_claim hC1 [0, 1] [] = Except.ok [(0, [(0, [0]), (1, [1])])] ∧
    buildMLDict hC1 [0, 1] [] ≠ buildMLDict_claim hC1 [0, 1] [] ∧
    extract_ml_val_ndx (getKey hC1 1) = Except.ok (1, 0) := by
  refine ⟨by decide, by decide, by decide, by decide⟩

theorem contains_eq_mem_nat (l : List Nat) (x : Nat) : l.contains x = decide (x ∈ l) := by
  simp [List.contains, List.elem_eq_mem]

theorem contains_true_of_mem (l : List Nat) (x : Nat) (hx : x ∈ l) : l.contains x = true := by
  rw [contains_eq_mem_nat]; exact decide_eq_true hx

theorem contains_false_of_not_mem (l : List Nat) (x : Nat) (hx : x ∉ l) :
    l.contains x = false := by
  rw [contains_eq_mem_nat]; exact decide_eq_false hx

theorem mlBucket_mlDictAdd_same (d : MLDict) (g v i : Nat) :
    mlBucket (mlDictAdd d g v i) g v =
      if i ∈ mlBucket d g v then mlBucket d g v else mlBucket d g v ++ [i] := by
  unfold mlBucket mlDictAdd valDictAdd
  rw [alGet_alSet_self]
  cases hv : alGet ((alGet d g).getD []) v with
  | none => simp [hv, alGet_alSet_self]
  | some b =>
    by_cases hm : i ∈ b
    · simp [hv, hm, contains_true_of_mem _ _ hm]
    · simp [hv, hm, contains_false_of_not_mem _ _ hm, alGet_alSet_self]

theorem alGet_valDictAdd_other (vals : ValDict) (v v' i : Nat) (hne : v' ≠ v) :
    alGet (valDictAdd vals v i) v' = alGet vals v' := by
  unfold valDictAdd
  cases hv : alGet vals v with
  | none => rw [alGet_alSet_ne _ _ _ _ hne]
  | some b =>
    by_cases hm : i ∈ b
    · simp [hm]
    · simp [hm, alGet_alSet_ne _ _ _ _ hne]

theorem dedupNotIn_cons_mem (s : List Nat) (i : Nat) (rest : List Nat) (hi : i ∈ s) :
    dedupNotIn s (i :: rest) = dedupNotIn s rest := by
  have hstep : dedupNotIn s (i :: rest) =
      if s.contains i then dedupNotIn s rest else i :: dedupNotIn (i :: s) rest := rfl
  rw [hstep, contains_true_of_mem _ _ hi]
  simp only [if_true]

theorem dedupNotIn_cons_not_mem (s : List Nat) (i : Nat) (rest : List Nat) (hi : i ∉ s) :
    dedupNotIn s (i :: rest) = i :: dedupNotIn (i :: s) rest := by
  have hstep : dedupNotIn s (i :: rest) =
      if s.contains i then dedupNotIn s rest else i :: dedupNotIn (i :: s) rest := rfl
  rw [hstep, contains_false_of_not_mem _ _ hi]
  simp only [Bool.false_eq_true, if_false]

theorem mlBucket_mlDictAdd_other (d : MLDict) (g v g' v' i : Nat)
    (hne : ¬(g' = g ∧ v' = v)) :
    mlBucket (mlDictAdd d g v i) g' v' = mlBucket d g' v' := by
  by_cases hg : g' = g
  · subst hg
    have hv : v' ≠ v := fun hv => hne ⟨rfl, hv⟩
    unfold mlBucket mlDictAdd
    rw [alGet_alSet_self]
    simp only [Option.getD_some]
    rw [alGet_valDictAdd_other _ _ _ _ hv]
  · unfold mlBucket mlDictAdd
    rw [alGet_alSet_ne _ _ _ _ hg]

theorem dedupNotIn_congr (s s' : List Nat) (l : List Nat)
    (hme : ∀ x, x ∈ s ↔ x ∈ s') : dedupNotIn s l = dedupNotIn s' l := by
  induction l generalizing s s' with
  | nil => rfl
  | cons i rest ih =>
    unfold dedupNotIn
    by_cases hi : i ∈ s
    · rw [contains_true_of_mem _ _ hi, contains_true_of_mem _ _ ((hme i).mp hi)]
      simp only [if_true]
      exact ih s s' hme
    · have hi' : i ∉ s' := fun hh => hi ((hme i).mpr hh)
      rw [contains_false_of_not_mem _ _ hi, contains_false_of_not_mem _ _ hi']
      simp only [Bool.false_eq_true, if_false]
      have hstep : ∀ x, x ∈ i :: s ↔ x ∈ i :: s' := by
        intro x; simp [hme x]
      rw [ih (i :: s) (i :: s') hstep]

theorem mem_dedupNotIn (s l : List Nat) (x : Nat) (hx : x ∈ dedupNotIn s l) : x ∈ l := by
  induction l generalizing s with
  | nil => simpa [dedupNotIn] using hx
  | cons i rest ih =>
    unfold dedupNotIn at hx
    by_cases hc : s.contains i
    · simp only [hc, if_true] at hx
      exact List.mem_cons_of_mem _ (ih _ hx)
    · simp only [hc, if_false, Bool.false_eq_true] at hx
      rcases List.mem_cons.mp hx with h | h
      · exact h ▸ List.mem_cons_self _ _
      · exact List.mem_cons_of_mem _ (ih _ h)

theorem buildMLDict_bucket (h : Heap) (ids : List Nat) (d0 d : MLDict)
    (hb : buildMLDict h ids d0 = Except.ok d) (g v : Nat) :
    mlBucket d g v = mlBucket d0 g v ++
      dedupNotIn (mlBucket d0 g v) (ids.filter (inBucketPred h g v)) := by
  induction ids generalizing d0 with
  | nil =>
    have hd : d0 = d := by simpa [buildMLDict] using hb
    simp [hd, dedupNotIn]
  | cons i rest ih =>
    by_cases he : lbl (getKey h i) 4 = "e"
    · have hb' : buildMLDict h rest d0 = Except.ok d := by
        simpa [buildMLDict, he] using hb
      have hp : inBucketPred h g v i = false := by
        simp [inBucketPred, he]
      rw [List.filter_cons, hp]
      simpa using ih d0 hb'
    · cases hex : extract_ml_val_ndx (getKey h i) with
      | error e =>
        exfalso
        have : Except.error (α := MLDict) e = Except.ok d := by
          simpa [buildMLDict, he, hex] using hb
        exact Except.noConfusion this
      | ok p =>
        obtain ⟨pv, pn⟩ := p
        have hb' : buildMLDict h rest (mlDictAdd d0 pv pn i) = Except.ok d := by
          simpa [buildMLDict, he, hex] using hb
        have key := ih (mlDictAdd d0 pv pn i) hb'
        by_cases hgv : g = pv ∧ v = pn
        · obtain ⟨hg1, hv1⟩ := hgv
          subst hg1; subst hv1
          have hp : inBucketPred h g v i = true := by
            simp [inBucketPred, he, hex]
          rw [List.filter_cons, hp]
          simp only [if_true]
          by_cases hm : i ∈ mlBucket d0 g v
          · have hbeq : mlBucket (mlDictAdd d0 g v i) g v = mlBucket d0 g v := by
              rw [mlBucket_mlDictAdd_same, if_pos hm]
            rw [hbeq] at key
            rw [dedupNotIn_cons_mem _ _ _ hm]
            exact key
          · have hbeq : mlBucket (mlDictAdd d0 g v i) g v = mlBucket d0 g v ++ [i] := by
              rw [mlBucket_mlDictAdd_same, if_neg hm]
            rw [hbeq] at key
            rw [dedupNotIn_cons_not_mem _ _ _ hm, key, List.append_assoc,
              List.singleton_append]
            have hcongr : dedupNotIn (mlBucket d0 g v ++ [i])
                (List.filter (inBucketPred h g v) rest) =
                dedupNotIn (i :: mlBucket d0 g v)
                  (List.filter (inBucketPred h g v) rest) := by
              apply dedupNotIn_congr
              intro x
              simp [List.mem_append, List.mem_cons, or_comm]
            rw [hcongr]
        · have hp : inBucketPred h g v i = false := by
            simp only [inBucketPred, he, hex, Bool.and_eq_false_imp]
            intro _
            simp only [decide_eq_false_iff_not]
            intro hcontra
            have hpair := Except.ok.inj hcontra
            exact hgv ⟨congrArg Prod.fst hpair.symm, congrArg Prod.snd hpair.symm⟩
          rw [List.filter_cons, hp]
          simp only [Bool.false_eq_true, if_false]
          have hbeq : mlBucket (mlDictAdd d0 pv pn i) g v = mlBucket d0 g v :=
            mlBucket_mlDictAdd_other _ _ _ _ _ _ hgv
          rw [hbeq] at key
          exact key

/-- C1, amended.  `extract_ml_val_ndx` does return `(value, index)` with the
value read from label slot 3 and the index from slot 5; but the grouper
buckets every non-encoder multilayout key under the group identified by the
extractor's first component (the slot-3 value label) and, within that group,
under the extractor's second component (the slot-5 index label) — the callers
unpack the extractor's pair in swapped order.  Each key lands in exactly one
(group, value) bucket, first-seen order preserved, duplicates within a bucket
removed. -/
theorem C1_grouping_amended :
    (∀ (key : Key) (pv pn : Nat), extract_ml_val_ndx key = Except.ok (pv, pn) →
      pyIsNumeric (lbl key 3) = true ∧ pyIsNumeric (lbl key 5) = true ∧
      pv = pyInt (lbl key 3) ∧ pn = pyInt (lbl key 5)) ∧
    (∀ (h : Heap) (ids : List Nat) (d : MLDict), buildMLDict h ids [] = Except.ok d →
      (∀ g v, mlBucket d g v = dedupNotIn [] (ids.filter (inBucketPred h g v))) ∧
      (∀ g v g' v' i, i ∈ mlBucket d g v → i ∈ mlBucket d g' v' → g = g' ∧ v = v')) := by
  constructor
  · intro key pv pn hex
    unfold extract_ml_val_ndx at hex
    by_cases hnum : pyIsNumeric (lbl key 3) && pyIsNumeric (lbl key 5)
    · rw [if_pos hnum] at hex
      obtain ⟨h3, h5⟩ := Bool.and_eq_true_iff.mp hnum
      have := Except.ok.inj hex
      exact ⟨h3, h5, (congrArg Prod.fst this).symm, (congrArg Prod.snd this).symm⟩
    · rw [if_neg hnum] at hex
      exact Except.noConfusion hex
  · intro h ids d hb
    have hchar : ∀ g v, mlBucket d g v =
        dedupNotIn [] (ids.filter (inBucketPred h g v)) := by
      intro g v
      have := buildMLDict_bucket h ids [] d hb g v
      simpa [mlBucket, alGet] using this
    refine ⟨hchar, ?_⟩
    intro g v g' v' i h1 h2
    rw [hchar g v] at h1
    rw [hchar g' v'] at h2
    have m1 := List.of_mem_filter (mem_dedupNotIn _ _ _ h1)
    have m2 := List.of_mem_filter (mem_dedupNotIn _ _ _ h2)
    simp only [inBucketPred, Bool.and_eq_true, decide_eq_true_eq] at m1 m2
    have := m1.2.symm.trans m2.2
    have hpair := Except.ok.inj this
    exact ⟨congrArg Prod.fst hpair, congrArg Prod.snd hpair⟩

/-- C1 witness: the amended characterization applied to the two-key keyboard
`hC1`, showing key 1 sits in the bucket of group 1 (its slot-3 label), value
0 (its slot-5 label). -/
theorem C1_witness :
    mlBucket [(0, [(0, [0])]), (1, [(0, [1])])] 1 0 =
      dedupNotIn [] ([0, 1].filter (inBucketPred hC1 1 0)) :=
  ((C1_grouping_amended.2 hC1 [0, 1] [(0, [(0, [0])]), (1, [(0, [1])])] (by decide)).1) 1 0

/-! ### Claim C2 -/

/-- C2, evaluation of the code at the failing input.  On `hC2` the single
group "0" has value buckets of sizes 2, 2 and 1.  The winner loop first marks
value 0 (the first maximum seen) as the winner and appends key 0, but the
stored winner 0 is falsy in the Python guard `if not ml_dict[ml_ndx].get("max")`,
so the next key re-runs winner selection, overwrites the winner with value 1,
and keys 1 and 3 are appended as well: before the reconciliation pass the
output holds keys of two different values (slot-5 labels "0" and "1") of the
same group, and both survive into the final `get_layout_all` output (ids 5 and
6 are the copies of keys 0 and 1). -/
theorem C2_winner_overwritten :
    buildMLDict hC2 [0, 1, 2, 3, 4] [] = Except.ok dC2 ∧
    (winnerLoop dC2 hC2 [] [] [] [0, 1, 2, 3, 4]).toOption.map
        (fun r => (r.2.1, r.2.2.2)) = some ([(0, 1)], [0, 1, 3]) ∧
    lbl (getKey hC2 0) 3 = "0" ∧ lbl (getKey hC2 1) 3 = "0" ∧
    lbl (getKey hC2 0) 5 = "0" ∧ lbl (getKey hC2 1) 5 = "1" ∧
    (get_layout_all hC2 [0, 1, 2, 3, 4]).toOption.map (fun p => p.2) =
      some [5, 6, 5, 8, 7, 9] := by
  refine ⟨by decide, by decide, by decide, by decide, by decide, by decide, by decide⟩

/-! ### Claim C3 -/

/-- C3, counterexample.  On `hC3` there is exactly one group, numbered 1 (its
slot-3 label), with one distinct value.  The selection `[0]` has the right
length and its selected index 0 is below the group's distinct-value count 1,
so by the claim validation should raise nothing; but the validation loop
subscripts the group dict with the positional index 0 and raises a `KeyError`,
which is neither `SelectionArityMismatch` nor `SelectionIndexOutOfRange`. -/
theorem C3_counterexample :
    get_specific_layout hC3 [0] [0] = Except.error Err.keyError ∧
    buildMLDict hC3 [0] [] = Except.ok [(1, [(0, [0])])] ∧
    ([0] : List Nat).length = 1 ∧ groupCount [(1, [(0, [0])])] 1 = 1 := by
  refine ⟨by decide, by decide, by decide, by decide⟩

theorem validateIndices_spec (d : MLDict) (sel : List Nat) (g0 : Nat)
    (hcont : ∀ j, j < sel.length → (alGet d (g0 + j)).isSome = true) :
    (validateIndices d g0 sel = Except.ok () ↔
      ∀ j, j < sel.length → sel.getD j 0 < groupCount d (g0 + j)) ∧
    (validateIndices d g0 sel = Except.error Err.indexOutOfRange ↔
      ¬∀ j, j < sel.length → sel.getD j 0 < groupCount d (g0 + j)) := by
  induction sel generalizing g0 with
  | nil =>
    constructor
    · simp [validateIndices]
    · simp [validateIndices]
  | cons s rest ih =>
    have h0 : (alGet d (g0 + 0)).isSome = true := hcont 0 (by simp)
    rw [Nat.add_zero] at h0
    obtain ⟨vals, hvals⟩ := Option.isSome_iff_exists.mp h0
    have hcount : groupCount d g0 = vals.length := by
      simp [groupCount, hvals]
    have hunfold : validateIndices d g0 (s :: rest) =
        (if s ≥ vals.length then Except.error Err.indexOutOfRange
         else validateIndices d (g0 + 1) rest) := by
      simp [validateIndices, hvals]
    by_cases hge : s ≥ vals.length
    · rw [hunfold, if_pos hge]
      constructor
      · constructor
        · intro hcontra; exact Except.noConfusion hcontra
        · intro hall
          exact absurd (by simpa [hcount] using hall 0 (by simp)) (Nat.not_lt.mpr hge)
      · constructor
        · intro _
          intro hall
          exact absurd (by simpa [hcount] using hall 0 (by simp)) (Nat.not_lt.mpr hge)
        · intro _; rfl
    · have hlt : s < vals.length := Nat.lt_of_not_le hge
      rw [hunfold, if_neg hge]
      have hcont' : ∀ j, j < rest.length → (alGet d (g0 + 1 + j)).isSome = true := by
        intro j hj
        have := hcont (j + 1) (by simpa using Nat.succ_lt_succ hj)
        rwa [show g0 + (j + 1) = g0 + 1 + j by omega] at this
      obtain ⟨ihok, iherr⟩ := ih (g0 + 1) hcont'
      have hsplit : (∀ j, j < (s :: rest).length → (s :: rest).getD j 0 < groupCount d (g0 + j)) ↔
          (∀ j, j < rest.length → rest.getD j 0 < groupCount d (g0 + 1 + j)) := by
        constructor
        · intro hall j hj
          have := hall (j + 1) (by simpa using Nat.succ_lt_succ hj)
          rwa [List.getD_cons_succ, show g0 + (j + 1) = g0 + 1 + j by omega] at this
        · intro hall j hj
          cases j with
          | zero => simpa [hcount] using hlt
          | succ n =>
            have hn : n < rest.length := by simpa using Nat.lt_of_succ_lt_succ hj
            have := hall n hn
            rwa [List.getD_cons_succ, show g0 + (n + 1) = g0 + 1 + n by omega]
      constructor
      · rw [ihok, hsplit]
      · rw [iherr, not_iff_not, hsplit]

/-- C3, amended.  Provided the group numbers are exactly the positions
`0 .. groupCount-1` (the validation loop subscripts the group dict
positionally, so a gap raises a `KeyError` instead), validation raises
`SelectionArityMismatch` iff the selection's length differs from the number of
groups; otherwise it raises `SelectionIndexOutOfRange` iff some selected index
is at least its group's distinct-value count; and when neither condition
holds it raises no error. -/
theorem C3_validation_amended (d : MLDict) (sel : List Nat)
    (hcont : ∀ gi, gi < d.length → (alGet d gi).isSome = true) :
    (validateSelection d sel = Except.error Err.arityMismatch ↔ sel.length ≠ d.length) ∧
    (validateSelection d sel = Except.error Err.indexOutOfRange ↔
      sel.length = d.length ∧ ∃ gi, gi < sel.length ∧ groupCount d gi ≤ sel.getD gi 0) ∧
    (validateSelection d sel = Except.ok () ↔
      sel.length = d.length ∧ ∀ gi, gi < sel.length → sel.getD gi 0 < groupCount d gi) := by
  by_cases hlen : sel.length = d.length
  · have hcont' : ∀ j, j < sel.length → (alGet d (0 + j)).isSome = true := by
      intro j hj
      rw [Nat.zero_add]
      exact hcont j (hlen ▸ hj)
    obtain ⟨hok, herr⟩ := validateIndices_spec d sel 0 hcont'
    have hval : validateSelection d sel = validateIndices d 0 sel := by
      simp [validateSelection, hlen]
    have hshift : (∀ j, j < sel.length → sel.getD j 0 < groupCount d (0 + j)) ↔
        (∀ gi, gi < sel.length → sel.getD gi 0 < groupCount d gi) := by
      constructor
      · intro hall gi hgi; have := hall gi hgi; rwa [Nat.zero_add] at this
      · intro hall j hj; rw [Nat.zero_add]; exact hall j hj
    refine ⟨?_, ?_, ?_⟩
    · rw [hval]
      constructor
      · intro hcontra
        by_cases hall : ∀ j, j < sel.length → sel.getD j 0 < groupCount d (0 + j)
        · have hd := hok.mpr hall
          simp [hd] at hcontra
        · have hd := herr.mpr hall
          simp [hd] at hcontra
      · intro hcontra; exact absurd hlen hcontra
    · rw [hval]
      constructor
      · intro hd
        refine ⟨hlen, ?_⟩
        have := herr.mp hd
        rw [hshift] at this
        push_neg at this
        obtain ⟨gi, hgi, hle⟩ := this
        exact ⟨gi, hgi, Nat.not_lt.mp (by simpa using hle)⟩
      · rintro ⟨-, gi, hgi, hle⟩
        have hnot : ¬∀ j, j < sel.length → sel.getD j 0 < groupCount d (0 + j) := by
          rw [hshift]
          push_neg
          exact ⟨gi, hgi, by simpa using Nat.not_lt.mpr hle⟩
        exact herr.mpr hnot
    · rw [hval]
      constructor
      · intro hd
        exact ⟨hlen, hshift.mp (hok.mp hd)⟩
      · rintro ⟨-, hall⟩
        exact hok.mpr (hshift.mpr hall)
  · have hval : validateSelection d sel = Except.error Err.arityMismatch := by
      simp [validateSelection, hlen]
    refine ⟨?_, ?_, ?_⟩
    · simp [hval, hlen]
    · simp [hval, hlen]
    · simp [hval, hlen]

/-- C3 witness: the amended validation trichotomy applied to a one-group,
two-value dict with the in-range selection `[1]` (no error) after discharging
the contiguity hypothesis. -/
theorem C3_witness :
    validateSelection [(0, [(0, [0]), (1, [1])])] [1] = Except.ok () :=
  ((C3_validation_amended [(0, [(0, [0]), (1, [1])])] [1]
      (fun gi hgi => by
        cases gi with
        | zero => decide
        | succ n => exact absurd hgi (by simp))).2.2).mpr
    ⟨rfl, fun gi hgi => by
      cases gi with
      | zero => decide
      | succ n => exact absurd hgi (by simp)⟩

/-! ### Claim C6 -/

/-- C6, evaluation of the code at the failing input.  `hC6` holds a normal
multilayout key and an encoder-marked one (slot-4 label "e").  The winner and
reconciliation loops of `get_layout_all` iterate over all multilayout keys
without the encoder filter, so the encoder key is appended twice and the final
output's slot-4 labels are ["", "e", "e"]; `get_specific_layout` on the same
keyboard excludes it. -/
theorem C6_encoder_in_output :
    (get_layout_all hC6 [0, 1]).toOption.map
        (fun p => p.2.map (fun i => lbl (getKey p.1 i) 4)) = some ["", "e", "e"] ∧
    lbl (getKey hC6 1) 4 = "e" ∧
    (get_specific_layout hC6 [0, 1] [0]).toOption.map
        (fun p => p.2.map (fun i => lbl (getKey p.1 i) 4)) = some [""] := by
  refine ⟨by decide, by decide, by decide⟩

/-! ### Claim C7: the reconciliation pass -/

theorem coordsOfBucket_append (h : Heap) (b : List Nat) (cs : List (Nat × Nat)) (i : Nat)
    (rc : Nat × Nat) (hb : coordsOfBucket h b = Except.ok cs)
    (hi : extract_row_col (getKey h i) = Except.ok rc) :
    coordsOfBucket h (b ++ [i]) = Except.ok (cs ++ [rc]) := by
  induction b generalizing cs with
  | nil =>
    simp only [coordsOfBucket] at hb
    have hcs := Except.ok.inj hb
    subst hcs
    simp [coordsOfBucket, hi]
  | cons j rest ih =>
    cases hj : extract_row_col (getKey h j) with
    | error e => simp [coordsOfBucket, hj] at hb
    | ok rcj =>
      cases hrest : coordsOfBucket h rest with
      | error e => simp [coordsOfBucket, hj, hrest] at hb
      | ok csr =>
        simp only [coordsOfBucket, hj, hrest] at hb
        have hcs := Except.ok.inj hb
        subst hcs
        simp [coordsOfBucket, hj, ih csr hrest]

/-- C7: the reconciliation pass refines the claim's rule.  Started from any
state where each group-with-winner's bucket coordinates agree with the
claim-level coordinate lists, a successful run appends to the output exactly
the keys `reconcile_claim` keeps: those whose matrix coordinate is absent
from their group's winner coordinates as accumulated so far, so among several
keys sharing one missing coordinate only the first is appended; the appended
keys are ids of the walked multilayout keys, appended with their key objects
untouched (the loop never writes the heap, which is why it takes the heap
read-only). -/
theorem C7_reconciliation (h : Heap) (maxes : List (Nat × Nat)) :
    ∀ (ids : List Nat) (d : MLDict) (cm : List (Nat × List (Nat × Nat)))
      (qmk : List Nat) (d' : MLDict) (qmk' : List Nat),
      ReconInv h maxes d cm →
      reconcileLoop h maxes d qmk ids = Except.ok (d', qmk') →
      ∃ app, reconcile_claim h cm ids = Except.ok app ∧ qmk' = qmk ++ app ∧
        ∀ i ∈ app, i ∈ ids := by
  intro ids
  induction ids with
  | nil =>
    intro d cm qmk d' qmk' hinv hrun
    simp only [reconcileLoop] at hrun
    have hpair := Except.ok.inj hrun
    refine ⟨[], by simp [reconcile_claim], ?_, by simp⟩
    have hq : qmk = qmk' := congrArg Prod.snd hpair
    rw [← hq]
    simp
  | cons i rest ih =>
    intro d cm qmk d' qmk' hinv hrun
    cases hex : extract_ml_val_ndx (getKey h i) with
    | error e => simp [reconcileLoop, hex] at hrun
    | ok p =>
      obtain ⟨mlv, mln⟩ := p
      cases hmax : alGet maxes mlv with
      | none => simp [reconcileLoop, hex, hmax] at hrun
      | some max_val =>
        obtain ⟨vals, b, cs, hvals, hbkt, hcoords, hcm⟩ := (hinv mlv).2 max_val hmax
        cases hrc : extract_row_col (getKey h i) with
        | error e => simp [reconcileLoop, hex, hmax, hvals, hbkt, hcoords, hrc] at hrun
        | ok rc =>
          have hgo : groupOfKey h i = Except.ok mlv := by simp [groupOfKey, hex]
          by_cases hmem : rc ∈ cs
          · have hrun' : reconcileLoop h maxes d qmk rest = Except.ok (d', qmk') := by
              simpa [reconcileLoop, hex, hmax, hvals, hbkt, hcoords, hrc, hmem] using hrun
            obtain ⟨app, hc, hq, hsub⟩ := ih d cm qmk d' qmk' hinv hrun'
            refine ⟨app, ?_, hq, fun x hx => List.mem_cons_of_mem _ (hsub x hx)⟩
            simp [reconcile_claim, hgo, hcm, hrc, hmem, hc]
          · have hrun' : reconcileLoop h maxes
                (alSet d mlv (alSet vals max_val (b ++ [i]))) (qmk ++ [i]) rest =
                Except.ok (d', qmk') := by
              simpa [reconcileLoop, hex, hmax, hvals, hbkt, hcoords, hrc, hmem] using hrun
            have hinv' : ReconInv h maxes (alSet d mlv (alSet vals max_val (b ++ [i])))
                (alSet cm mlv (cs ++ [rc])) := by
              intro g
              constructor
              · intro hg
                have hgne : g ≠ mlv := by
                  intro hh
                  rw [hh, hmax] at hg
                  exact Option.noConfusion hg
                rw [alGet_alSet_ne _ _ _ _ hgne]
                exact (hinv g).1 hg
              · intro m hm
                by_cases hg : g = mlv
                · subst hg
                  rw [hmax] at hm
                  have hmeq : max_val = m := Option.some.inj hm
                  subst hmeq
                  refine ⟨alSet vals max_val (b ++ [i]), b ++ [i], cs ++ [rc], ?_, ?_, ?_, ?_⟩
                  · exact alGet_alSet_self _ _ _
                  · exact alGet_alSet_self _ _ _
                  · exact coordsOfBucket_append h b cs i rc hcoords hrc
                  · exact alGet_alSet_self _ _ _
                · obtain ⟨vals2, b2, cs2, hv2, hb2, hc2, hcm2⟩ := (hinv g).2 m hm
                  refine ⟨vals2, b2, cs2, ?_, hb2, hc2, ?_⟩
                  · rw [alGet_alSet_ne _ _ _ _ hg]; exact hv2
                  · rw [alGet_alSet_ne _ _ _ _ hg]; exact hcm2
            obtain ⟨app, hc, hq, hsub⟩ := ih _ _ _ _ _ hinv' hrun'
            refine ⟨i :: app, ?_, ?_, ?_⟩
            · simp [reconcile_claim, hgo, hcm, hrc, hmem, hc]
            · rw [hq]; simp
            · intro x hx
              rcases List.mem_cons.mp hx with heq | hxa
              · exact heq ▸ List.mem_cons_self _ _
              · exact List.mem_cons_of_mem _ (hsub x hxa)

/-- C7 witness: the reconciliation refinement applied to `hW` with winner
value 1 of group 0 (bucket keys 2 and 3, coordinates (1,0) and (1,1)): key 1's
coordinate (0,0) is missing, so exactly key 1 is appended. -/
theorem C7_witness :
    ∃ app, reconcile_claim hW [(0, [(1, 0), (1, 1)])] [1, 2, 3] = Except.ok app ∧
      [1] = [] ++ app ∧ ∀ i ∈ app, i ∈ ([1, 2, 3] : List Nat) :=
  C7_reconciliation hW [(0, 1)] [1, 2, 3] [(0, [(0, [1]), (1, [2, 3])])]
    [(0, [(1, 0), (1, 1)])] [] [(0, [(0, [1]), (1, [2, 3, 1])])] [1]
    (by
      intro g
      by_cases hg : g = 0
      · subst hg
        constructor
        · intro hnone; exact absurd hnone (by decide)
        · intro m hm
          have hm1 : (1 : Nat) = m := by
            have hm' : (some 1 : Option Nat) = some m := by simpa [alGet] using hm
            exact Option.some.inj hm'
          subst hm1
          exact ⟨[(0, [1]), (1, [2, 3])], [2, 3], [(1, 0), (1, 1)], by decide, by decide,
            by decide, by decide⟩
      · constructor
        · intro _; simp [alGet, Ne.symm hg]
        · intro m hm; exact absurd hm (by simp [alGet, Ne.symm hg]))
    (by decide)

/-! ### Claims C4 and C5: the offset engine -/

theorem applySelectedKeys_zero (vals : ValDict) (h : Heap) (offs : List (Nat × (ℚ × ℚ)))
    (qmk l : List Nat) :
    applySelectedKeys vals 0 h offs qmk l = Except.ok (h, offs, qmk ++ l) := by
  induction l generalizing qmk with
  | nil => simp [applySelectedKeys]
  | cons i rest ih =>
    simp only [applySelectedKeys]
    rw [if_neg (by omega)]
    rw [ih (qmk ++ [i])]
    simp

theorem applySelectedKeys_cached (vals : ValDict) (s : Nat) (hs : 0 < s) (dx dy : ℚ)
    (offs : List (Nat × (ℚ × ℚ))) (hoffs : alGet offs s = some (dx, dy)) :
    ∀ (l : List Nat) (h : Heap) (qmk : List Nat), l.Nodup → (∀ i ∈ l, i < h.length) →
    ∃ h', applySelectedKeys vals s h offs qmk l = Except.ok (h', offs, qmk ++ l) ∧
      h'.length = h.length ∧
      (∀ i ∈ l, getKey h' i = offsetKey (getKey h i) dx dy) ∧
      (∀ j, j ∉ l → getKey h' j = getKey h j) := by
  intro l
  induction l with
  | nil =>
    intro h qmk _ _
    exact ⟨h, by simp [applySelectedKeys], rfl, by simp, fun j _ => rfl⟩
  | cons i rest ih =>
    intro h qmk hnd hlen
    obtain ⟨hni, hndr⟩ := List.nodup_cons.mp hnd
    have hstep : applySelectedKeys vals s h offs qmk (i :: rest) =
        applySelectedKeys vals s (setKey h i (offsetKey (getKey h i) dx dy)) offs
          (qmk ++ [i]) rest := by
      simp only [applySelectedKeys]
      rw [if_pos hs]
      simp only [hoffs]
    have hlen1 : ∀ i' ∈ rest, i' < (setKey h i (offsetKey (getKey h i) dx dy)).length := by
      intro i' hi'
      rw [length_setKey]
      exact hlen i' (List.mem_cons_of_mem _ hi')
    obtain ⟨h', hrun, hl, hinm, hout⟩ :=
      ih (setKey h i (offsetKey (getKey h i) dx dy)) (qmk ++ [i]) hndr hlen1
    refine ⟨h', ?_, ?_, ?_, ?_⟩
    · rw [hstep, hrun]
      simp
    · rw [hl, length_setKey]
    · intro i' hi'
      rcases List.mem_cons.mp hi' with heq | hmem
      · subst heq
        rw [hout i' hni]
        exact getKey_setKey_self h i' _ (hlen i' (List.mem_cons_self _ _))
      · rw [hinm i' hmem]
        congr 1
        exact getKey_setKey_ne h i i' _ (fun heq => hni (heq ▸ hmem))
    · intro j hj
      have hjr : j ∉ rest := fun hh => hj (List.mem_cons_of_mem _ hh)
      have hji : j ≠ i := fun hh => hj (hh ▸ List.mem_cons_self _ _)
      rw [hout j hjr, getKey_setKey_ne h i j _ hji]

theorem applySelectedKeys_run (vals : ValDict) (s : Nat) (h : Heap) (b0 bsel : List Nat)
    (x0 y0 xv yv : ℚ) (hs : 0 < s)
    (hb0 : alGet vals 0 = some b0) (hbsel : alGet vals s = some bsel)
    (hm0 : min_x_y h b0 = Except.ok (x0, y0)) (hmv : min_x_y h bsel = Except.ok (xv, yv))
    (hnd : bsel.Nodup) (hlen : ∀ i ∈ bsel, i < h.length) (qmk : List Nat) :
    ∃ h', applySelectedKeys vals s h [] qmk bsel =
        Except.ok (h', [(s, (x0 - xv, y0 - yv))], qmk ++ bsel) ∧
      h'.length = h.length ∧
      (∀ i ∈ bsel, getKey h' i = offsetKey (getKey h i) (x0 - xv) (y0 - yv)) ∧
      (∀ j, j ∉ bsel → getKey h' j = getKey h j) := by
  cases bsel with
  | nil => exact absurd hmv (by simp [min_x_y])
  | cons i rest =>
    obtain ⟨hni, hndr⟩ := List.nodup_cons.mp hnd
    have hstep : applySelectedKeys vals s h [] qmk (i :: rest) =
        applySelectedKeys vals s (setKey h i (offsetKey (getKey h i) (x0 - xv) (y0 - yv)))
          (alSet [] s (x0 - xv, y0 - yv)) (qmk ++ [i]) rest := by
      simp only [applySelectedKeys]
      rw [if_pos hs]
      simp only [alGet, hb0, hm0, hbsel, hmv]
    have hoffs : alGet (alSet ([] : List (Nat × (ℚ × ℚ))) s (x0 - xv, y0 - yv)) s =
        some (x0 - xv, y0 - yv) := alGet_alSet_self _ _ _
    have hlen1 : ∀ i' ∈ rest,
        i' < (setKey h i (offsetKey (getKey h i) (x0 - xv) (y0 - yv))).length := by
      intro i' hi'
      rw [length_setKey]
      exact hlen i' (List.mem_cons_of_mem _ hi')
    obtain ⟨h', hrun, hl, hinm, hout⟩ :=
      applySelectedKeys_cached vals s hs (x0 - xv) (y0 - yv) _ hoffs rest
        (setKey h i (offsetKey (getKey h i) (x0 - xv) (y0 - yv))) (qmk ++ [i]) hndr hlen1
    refine ⟨h', ?_, ?_, ?_, ?_⟩
    · rw [hstep, hrun]
      simp [alSet]
    · rw [hl, length_setKey]
    · intro i' hi'
      rcases List.mem_cons.mp hi' with heq | hmem
      · subst heq
        rw [hout i' hni]
        exact getKey_setKey_self h i' _ (hlen i' (List.mem_cons_self _ _))
      · rw [hinm i' hmem]
        congr 1
        exact getKey_setKey_ne h i i' _ (fun heq => hni (heq ▸ hmem))
    · intro j hj
      have hjr : j ∉ rest := fun hh => hj (List.mem_cons_of_mem _ hh)
      have hji : j ≠ i := fun hh => hj (hh ▸ List.mem_cons_self _ _)
      rw [hout j hjr, getKey_setKey_ne h i j _ hji]

/-- C4: for a group with selected value `s > 0`, the offset applied is
`(dx, dy)` = min-corner of bucket 0 minus min-corner of the selected bucket
(both read from the heap as it is when the group is processed), it is computed
once and cached (the final cache holds exactly the one entry, and every key of
the bucket is translated by that same pair); applying it adds `dx`/`dy` to the
key's x/y and, exactly for keys with a non-zero rotation angle, subtracts them
from the rotation origin; keys outside the bucket are untouched; and when the
selected value is 0 the pass appends the bucket unchanged, applying no offset
to any key. -/
theorem C4_offset_engine (vals : ValDict) (s : Nat) (h : Heap) (b0 bsel : List Nat)
    (x0 y0 xv yv : ℚ) (hs : 0 < s)
    (hb0 : alGet vals 0 = some b0) (hbsel : alGet vals s = some bsel)
    (hm0 : min_x_y h b0 = Except.ok (x0, y0)) (hmv : min_x_y h bsel = Except.ok (xv, yv))
    (hnd : bsel.Nodup) (hlen : ∀ i ∈ bsel, i < h.length) (qmk : List Nat) :
    (∃ h', applySelectedKeys vals s h [] qmk bsel =
        Except.ok (h', [(s, (x0 - xv, y0 - yv))], qmk ++ bsel) ∧
      h'.length = h.length ∧
      (∀ i ∈ bsel, getKey h' i = offsetKey (getKey h i) (x0 - xv) (y0 - yv)) ∧
      (∀ j, j ∉ bsel → getKey h' j = getKey h j)) ∧
    (∀ (k : Key) (dx dy : ℚ),
      (offsetKey k dx dy).x = k.x + dx ∧ (offsetKey k dx dy).y = k.y + dy ∧
      (k.rotation_angle ≠ 0 →
        (offsetKey k dx dy).rotation_x = k.rotation_x - dx ∧
        (offsetKey k dx dy).rotation_y = k.rotation_y - dy) ∧
      (k.rotation_angle = 0 →
        (offsetKey k dx dy).rotation_x = k.rotation_x ∧
        (offsetKey k dx dy).rotation_y = k.rotation_y)) ∧
    (∀ (vals' : ValDict) (h' : Heap) (offs : List (Nat × (ℚ × ℚ))) (qmk' l : List Nat),
      applySelectedKeys vals' 0 h' offs qmk' l = Except.ok (h', offs, qmk' ++ l)) := by
  refine ⟨applySelectedKeys_run vals s h b0 bsel x0 y0 xv yv hs hb0 hbsel hm0 hmv hnd hlen qmk,
    ?_, ?_⟩
  · intro k dx dy
    refine ⟨rfl, rfl, ?_, ?_⟩
    · intro hrot
      constructor
      · simp [offsetKey, hrot]
      · simp [offsetKey, hrot]
    · intro hrot
      constructor
      · simp [offsetKey, hrot]
      · simp [offsetKey, hrot]
  · intro vals' h' offs qmk' l
    exact applySelectedKeys_zero vals' h' offs qmk' l

/-- C4 witness: the offset engine run on the concrete keyboard `hW`, group
buckets value 0 = key 1 at (1,0) and value 1 = keys 2 and 3 with min-corner
(1,2), giving offset (0,-2). -/
theorem C4_witness :
    (∃ h', applySelectedKeys [(0, [1]), (1, [2, 3])] 1 hW [] [] [2, 3] =
        Except.ok (h', [(1, ((1 : ℚ) - 1, (0 : ℚ) - 2))], [2, 3]) ∧
      h'.length = hW.length ∧
      (∀ i ∈ ([2, 3] : List Nat),
        getKey h' i = offsetKey (getKey hW i) ((1 : ℚ) - 1) ((0 : ℚ) - 2)) ∧
      (∀ j, j ∉ ([2, 3] : List Nat) → getKey h' j = getKey hW j)) ∧
    (∀ (k : Key) (dx dy : ℚ),
      (offsetKey k dx dy).x = k.x + dx ∧ (offsetKey k dx dy).y = k.y + dy ∧
      (k.rotation_angle ≠ 0 →
        (offsetKey k dx dy).rotation_x = k.rotation_x - dx ∧
        (offsetKey k dx dy).rotation_y = k.rotation_y - dy) ∧
      (k.rotation_angle = 0 →
        (offsetKey k dx dy).rotation_x = k.rotation_x ∧
        (offsetKey k dx dy).rotation_y = k.rotation_y)) ∧
    (∀ (vals' : ValDict) (h' : Heap) (offs : List (Nat × (ℚ × ℚ))) (qmk' l : List Nat),
      applySelectedKeys vals' 0 h' offs qmk' l = Except.ok (h', offs, qmk' ++ l)) :=
  C4_offset_engine [(0, [1]), (1, [2, 3])] 1 hW [1] [2, 3] 1 0 1 2 (by decide)
    (by decide) (by decide) (by decide) (by decide) (by decide) (by decide) []

theorem foldl_min_shift (h h' : Heap) (dx dy : ℚ) (l : List Nat) :
    ∀ (a b : ℚ),
      (∀ i ∈ l, (getKey h' i).x = (getKey h i).x + dx ∧
        (getKey h' i).y = (getKey h i).y + dy) →
      l.foldl (fun p j => (min p.1 (getKey h' j).x, min p.2 (getKey h' j).y)) (a + dx, b + dy) =
        ((l.foldl (fun p j => (min p.1 (getKey h j).x, min p.2 (getKey h j).y)) (a, b)).1 + dx,
          (l.foldl (fun p j => (min p.1 (getKey h j).x, min p.2 (getKey h j).y)) (a, b)).2 + dy) := by
  induction l with
  | nil => intro a b _; simp
  | cons j rest ih =>
    intro a b hsh
    have hj := hsh j (List.mem_cons_self _ _)
    simp only [List.foldl_cons]
    rw [hj.1, hj.2, min_add_add_right a ((getKey h j).x) dx,
      min_add_add_right b ((getKey h j).y) dy]
    exact ih _ _ (fun i hi => hsh i (List.mem_cons_of_mem _ hi))

theorem min_x_y_shift (h h' : Heap) (l : List Nat) (dx dy : ℚ)
    (hsh : ∀ i ∈ l, (getKey h' i).x = (getKey h i).x + dx ∧
      (getKey h' i).y = (getKey h i).y + dy)
    (xv yv : ℚ) (hm : min_x_y h l = Except.ok (xv, yv)) :
    min_x_y h' l = Except.ok (xv + dx, yv + dy) := by
  cases l with
  | nil => simp [min_x_y] at hm
  | cons i rest =>
    simp only [min_x_y] at hm ⊢
    have hi := hsh i (List.mem_cons_self _ _)
    rw [hi.1, hi.2,
      foldl_min_shift h h' dx dy rest _ _ (fun i' hi' => hsh i' (List.mem_cons_of_mem _ hi'))]
    have hinj := Except.ok.inj hm
    rw [hinj]

/-- C5: after the offset engine has shifted every key of the selected bucket,
the componentwise min-corner of the selected bucket equals the min-corner that
bucket 0 had before the application. -/
theorem C5_min_corner_preserved (vals : ValDict) (s : Nat) (h : Heap) (b0 bsel : List Nat)
    (x0 y0 xv yv : ℚ) (hs : 0 < s)
    (hb0 : alGet vals 0 = some b0) (hbsel : alGet vals s = some bsel)
    (hm0 : min_x_y h b0 = Except.ok (x0, y0)) (hmv : min_x_y h bsel = Except.ok (xv, yv))
    (hnd : bsel.Nodup) (hlen : ∀ i ∈ bsel, i < h.length) (qmk : List Nat) :
    ∀ (h' : Heap) (offs : List (Nat × (ℚ × ℚ))) (qmk' : List Nat),
      applySelectedKeys vals s h [] qmk bsel = Except.ok (h', offs, qmk') →
      min_x_y h' bsel = Except.ok (x0, y0) := by
  intro h' offs qmk' hrun
  obtain ⟨h'', hrun'', _, hinm, _⟩ :=
    applySelectedKeys_run vals s h b0 bsel x0 y0 xv yv hs hb0 hbsel hm0 hmv hnd hlen qmk
  rw [hrun''] at hrun
  have hpair := Except.ok.inj hrun
  have hh : h'' = h' := congrArg Prod.fst hpair
  subst hh
  have hsh : ∀ i ∈ bsel, (getKey h'' i).x = (getKey h i).x + (x0 - xv) ∧
      (getKey h'' i).y = (getKey h i).y + (y0 - yv) := by
    intro i hi
    rw [hinm i hi]
    exact ⟨rfl, rfl⟩
  have hres := min_x_y_shift h h'' bsel (x0 - xv) (y0 - yv) hsh xv yv hmv
  have e1 : xv + (x0 - xv) = x0 := by ring
  have e2 : yv + (y0 - yv) = y0 := by ring
  rw [e1, e2] at hres
  exact hres

/-- C5 witness: on `hW`, after the engine shifts the value-1 bucket by
(0, -2), its min-corner equals bucket 0's original min-corner (1, 0). -/
theorem C5_witness :
    min_x_y
      [{ x := 0, y := 0, labels := ["", "", "", "", "", "", "", "", "", "5", "", "5"] },
       { x := 1, y := 0, labels := ["", "", "", "0", "", "0", "", "", "", "0", "", "0"] },
       { x := 1, y := 0, rotation_angle := 15, rotation_x := 4, rotation_y := 6,
         labels := ["", "", "", "0", "", "1", "", "", "", "1", "", "0"] },
       { x := 2, y := 0, labels := ["", "", "", "0", "", "1", "", "", "", "1", "", "1"] }]
      [2, 3] = Except.ok (1, 0) :=
  C5_min_corner_preserved [(0, [1]), (1, [2, 3])] 1 hW [1] [2, 3] 1 0 1 2 (by decide)
    (by decide) (by decide) (by decide) (by decide) (by decide) (by decide) []
    [{ x := 0, y := 0, labels := ["", "", "", "", "", "", "", "", "", "5", "", "5"] },
     { x := 1, y := 0, labels := ["", "", "", "0", "", "0", "", "", "", "0", "", "0"] },
     { x := 1, y := 0, rotation_angle := 15, rotation_x := 4, rotation_y := 6,
       labels := ["", "", "", "0", "", "1", "", "", "", "1", "", "0"] },
     { x := 2, y := 0, labels := ["", "", "", "0", "", "1", "", "", "", "1", "", "1"] }]
    [(1, (0, -2))] [2, 3] (by decide)

/-! ### Claim C8: the default synthesizer leaves the caller's keyboard alone -/

theorem evolves_refl (ids : List Nat) (h : Heap) : EvolvesWithin ids h h :=
  ⟨rfl, fun _ _ => rfl, fun _ => rfl⟩

theorem evolves_set (ids : List Nat) (h : Heap) (i : Nat) (k : Key)
    (hmem : i ∈ ids) (hlbl : k.labels = (getKey h i).labels) :
    EvolvesWithin ids h (setKey h i k) := by
  refine ⟨length_setKey h i k, ?_, ?_⟩
  · intro j hj
    exact getKey_setKey_ne h i j k (fun heq => hj (heq ▸ hmem))
  · intro j
    by_cases hji : j = i
    · subst hji
      by_cases hlt : j < h.length
      · rw [getKey_setKey_self h j k hlt]
        exact hlbl
      · have hnoop : setKey h j k = h :=
          List.set_eq_of_length_le (Nat.le_of_not_lt hlt)
        rw [hnoop]
    · rw [getKey_setKey_ne h i j k hji]

theorem evolves_trans (ids : List Nat) (h h1 h2 : Heap)
    (e1 : EvolvesWithin ids h h1) (e2 : EvolvesWithin ids h1 h2) :
    EvolvesWithin ids h h2 := by
  obtain ⟨l1, f1, lb1⟩ := e1
  obtain ⟨l2, f2, lb2⟩ := e2
  exact ⟨l2.trans l1, fun j hj => (f2 j hj).trans (f1 j hj),
    fun j => (lb2 j).trans (lb1 j)⟩

theorem evolves_mono (ids ids' : List Nat) (h h1 : Heap)
    (hsub : ∀ j, j ∈ ids → j ∈ ids') (e : EvolvesWithin ids h h1) :
    EvolvesWithin ids' h h1 := by
  obtain ⟨l1, f1, lb1⟩ := e
  exact ⟨l1, fun j hj => f1 j (fun hh => hj (hsub j hh)), lb1⟩

theorem winnerLoop_frame (d : MLDict) :
    ∀ (ids : List Nat) (h : Heap) (maxes : List (Nat × Nat))
      (goffs : List (Nat × List (Nat × (ℚ × ℚ)))) (qmk : List Nat)
      (h1 : Heap) (maxes1 : List (Nat × Nat)) (goffs1 : List (Nat × List (Nat × (ℚ × ℚ))))
      (qmk1 : List Nat),
      winnerLoop d h maxes goffs qmk ids = Except.ok (h1, maxes1, goffs1, qmk1) →
      EvolvesWithin ids h h1 ∧ ∃ app, qmk1 = qmk ++ app ∧ ∀ x ∈ app, x ∈ ids := by
  intro ids
  induction ids with
  | nil =>
    intro h maxes goffs qmk h1 maxes1 goffs1 qmk1 hrun
    simp only [winnerLoop] at hrun
    have hpair := Except.ok.inj hrun
    have hh : h1 = h := (congrArg (fun r => r.1) hpair).symm
    have hq : qmk1 = qmk := (congrArg (fun r => r.2.2.2) hpair).symm
    subst hh; subst hq
    exact ⟨evolves_refl _ _, [], by simp, by simp⟩
  | cons i rest ih =>
    intro h maxes goffs qmk h1 maxes1 goffs1 qmk1 hrun
    have hplain : ∀ (m' : List (Nat × Nat)) (g' : List (Nat × List (Nat × (ℚ × ℚ)))),
        winnerLoop d h m' g' qmk rest = Except.ok (h1, maxes1, goffs1, qmk1) →
        EvolvesWithin (i :: rest) h h1 ∧
          ∃ app, qmk1 = qmk ++ app ∧ ∀ x ∈ app, x ∈ i :: rest := by
      intro m' g' hr
      obtain ⟨hev, app, hq, hsub⟩ := ih h m' g' qmk h1 maxes1 goffs1 qmk1 hr
      exact ⟨evolves_mono _ _ _ _ (fun j hj => List.mem_cons_of_mem _ hj) hev, app, hq,
        fun x hx => List.mem_cons_of_mem _ (hsub x hx)⟩
    have happend : ∀ (m' : List (Nat × Nat)) (g' : List (Nat × List (Nat × (ℚ × ℚ)))),
        winnerLoop d h m' g' (qmk ++ [i]) rest = Except.ok (h1, maxes1, goffs1, qmk1) →
        EvolvesWithin (i :: rest) h h1 ∧
          ∃ app, qmk1 = qmk ++ app ∧ ∀ x ∈ app, x ∈ i :: rest := by
      intro m' g' hr
      obtain ⟨hev, app, hq, hsub⟩ := ih h m' g' (qmk ++ [i]) h1 maxes1 goffs1 qmk1 hr
      refine ⟨evolves_mono _ _ _ _ (fun j hj => List.mem_cons_of_mem _ hj) hev,
        i :: app, ?_, ?_⟩
      · rw [hq]; simp
      · intro x hx
        rcases List.mem_cons.mp hx with heq | hxa
        · exact heq ▸ List.mem_cons_self _ _
        · exact List.mem_cons_of_mem _ (hsub x hxa)
    have hset : ∀ (dx dy : ℚ) (m' : List (Nat × Nat))
        (g' : List (Nat × List (Nat × (ℚ × ℚ)))),
        winnerLoop d (setKey h i (offsetKey (getKey h i) dx dy)) m' g' (qmk ++ [i]) rest =
          Except.ok (h1, maxes1, goffs1, qmk1) →
        EvolvesWithin (i :: rest) h h1 ∧
          ∃ app, qmk1 = qmk ++ app ∧ ∀ x ∈ app, x ∈ i :: rest := by
      intro dx dy m' g' hr
      obtain ⟨hev, app, hq, hsub⟩ :=
        ih (setKey h i (offsetKey (getKey h i) dx dy)) m' g' (qmk ++ [i]) h1 maxes1 goffs1
          qmk1 hr
      have hev1 : EvolvesWithin (i :: rest) h (setKey h i (offsetKey (getKey h i) dx dy)) :=
        evolves_set _ _ _ _ (List.mem_cons_self _ _) (labels_offsetKey _ _ _)
      have hev2 : EvolvesWithin (i :: rest) (setKey h i (offsetKey (getKey h i) dx dy)) h1 :=
        evolves_mono _ _ _ _ (fun j hj => List.mem_cons_of_mem _ hj) hev
      refine ⟨evolves_trans _ _ _ _ hev1 hev2, i :: app, ?_, ?_⟩
      · rw [hq]; simp
      · intro x hx
        rcases List.mem_cons.mp hx with heq | hxa
        · exact heq ▸ List.mem_cons_self _ _
        · exact List.mem_cons_of_mem _ (hsub x hxa)
    simp only [winnerLoop] at hrun
    repeat' split at hrun
    all_goals first
      | exact Except.noConfusion hrun
      | exact hplain _ _ hrun
      | exact happend _ _ hrun
      | exact hset _ _ _ _ hrun

theorem get_multilayout_keys_subset (h : Heap) :
    ∀ (l ml : List Nat), get_multilayout_keys h l = Except.ok ml → ∀ i ∈ ml, i ∈ l := by
  intro l
  induction l with
  | nil =>
    intro ml hml i hi
    simp only [get_multilayout_keys] at hml
    have hnil := Except.ok.inj hml
    subst hnil
    simp at hi
  | cons j rest ih =>
    intro ml hml i hi
    simp only [get_multilayout_keys] at hml
    by_cases hcase : !(lbl (getKey h j) 3).isEmpty || !(lbl (getKey h j) 5).isEmpty
    · rw [if_pos hcase] at hml
      cases hex : extract_ml_val_ndx (getKey h j) with
      | error e => rw [hex] at hml; exact Except.noConfusion hml
      | ok p =>
        rw [hex] at hml
        cases hrest : get_multilayout_keys h rest with
        | error e => rw [hrest] at hml; exact Except.noConfusion hml
        | ok l' =>
          rw [hrest] at hml
          have hl' := Except.ok.inj hml
          subst hl'
          rcases List.mem_cons.mp hi with heq | hmem
          · exact heq ▸ List.mem_cons_self _ _
          · exact List.mem_cons_of_mem _ (ih _ hrest i hmem)
    · rw [if_neg hcase] at hml
      exact List.mem_cons_of_mem _ (ih _ hml i hi)

theorem reconcileLoop_append (h : Heap) (maxes : List (Nat × Nat)) :
    ∀ (ids : List Nat) (d : MLDict) (qmk : List Nat) (d' : MLDict) (qmk' : List Nat),
      reconcileLoop h maxes d qmk ids = Except.ok (d', qmk') →
      ∃ app, qmk' = qmk ++ app ∧ ∀ x ∈ app, x ∈ ids := by
  intro ids
  induction ids with
  | nil =>
    intro d qmk d' qmk' hrun
    simp only [reconcileLoop] at hrun
    have hq : qmk' = qmk := (congrArg (fun r => r.2) (Except.ok.inj hrun)).symm
    exact ⟨[], by simp [hq], by simp⟩
  | cons i rest ih =>
    intro d qmk d' qmk' hrun
    simp only [reconcileLoop] at hrun
    repeat' split at hrun
    all_goals first
      | exact Except.noConfusion hrun
      | (obtain ⟨app, hq, hsub⟩ := ih _ _ _ _ hrun
         exact ⟨app, hq, fun x hx => List.mem_cons_of_mem _ (hsub x hx)⟩)
      | (obtain ⟨app, hq, hsub⟩ := ih _ _ _ _ hrun
         refine ⟨i :: app, by rw [hq]; simp, ?_⟩
         intro x hx
         rcases List.mem_cons.mp hx with heq | hxa
         · exact heq ▸ List.mem_cons_self _ _
         · exact List.mem_cons_of_mem _ (hsub x hxa))

theorem normalizePass_evolves : ∀ (qmk : List Nat) (h : Heap) (xo yo : ℚ),
    EvolvesWithin qmk h (normalizePass h qmk xo yo) := by
  intro qmk
  induction qmk with
  | nil => intro h xo yo; exact evolves_refl _ _
  | cons i rest ih =>
    intro h xo yo
    simp only [normalizePass]
    have e1 : EvolvesWithin (i :: rest) h
        (setKey h i
          { getKey h i with x := (getKey h i).x - xo, y := (getKey h i).y - yo }) :=
      evolves_set _ _ _ _ (List.mem_cons_self _ _) rfl
    have e2 := ih (setKey h i
      { getKey h i with x := (getKey h i).x - xo, y := (getKey h i).y - yo }) xo yo
    exact evolves_trans _ _ _ _ e1
      (evolves_mono _ _ _ _ (fun j hj => List.mem_cons_of_mem _ hj) e2)

theorem mem_insertSorted (le : Nat → Nat → Bool) (x y : Nat) :
    ∀ (l : List Nat), y ∈ insertSorted le x l ↔ y = x ∨ y ∈ l := by
  intro l
  induction l with
  | nil => simp [insertSorted]
  | cons z rest ih =>
    simp only [insertSorted]
    split
    · simp only [List.mem_cons, ih]
      tauto
    · simp [List.mem_cons]

theorem mem_sortFold (le : Nat → Nat → Bool) :
    ∀ (l acc : List Nat) (y : Nat),
      y ∈ l.foldl (fun acc x => insertSorted le x acc) acc ↔ y ∈ acc ∨ y ∈ l := by
  intro l
  induction l with
  | nil => simp
  | cons x rest ih =>
    intro acc y
    simp only [List.foldl_cons, ih, mem_insertSorted, List.mem_cons]
    tauto

theorem mem_sort_keys (h : Heap) (ids : List Nat) (y : Nat) :
    y ∈ sort_keys h ids ↔ y ∈ ids := by
  unfold sort_keys
  rw [mem_sortFold]
  simp

theorem getKey_append_left (h : Heap) (tail : List Key) (j : Nat) (hj : j < h.length) :
    getKey (h ++ tail) j = getKey h j := by
  unfold getKey
  rw [List.getD_append _ _ _ _ hj]

theorem mem_range'_ge (n len i : Nat) (hi : i ∈ List.range' n len) : n ≤ i :=
  (List.mem_range'_1.mp hi).1

/-- C8: a successful `get_layout_all` leaves every key of the caller's heap
exactly as it was (the synthesis operates on the deep copy appended at the
end of the heap), and the returned key list only names the fresh copies,
never the caller's keys. -/
theorem C8_no_caller_mutation (h : Heap) (kbd : List Nat) (h' : Heap) (ids : List Nat)
    (hrun : get_layout_all h kbd = Except.ok (h', ids)) :
    (∀ j, j < h.length → getKey h' j = getKey h j) ∧ ∀ i ∈ ids, h.length ≤ i := by
  simp only [get_layout_all, deepcopyKeys] at hrun
  cases hml : get_multilayout_keys (h ++ kbd.map (getKey h))
      (List.range' h.length kbd.length) with
  | error e => simp only [hml] at hrun; exact Except.noConfusion hrun
  | ok mlids =>
    simp only [hml] at hrun
    cases hd : buildMLDict (h ++ kbd.map (getKey h))
        ((List.range' h.length kbd.length).filter (fun i => mlids.contains i)) [] with
    | error e => simp only [hml, hd] at hrun; exact Except.noConfusion hrun
    | ok d =>
      simp only [hd] at hrun
      cases hw : winnerLoop d (h ++ kbd.map (getKey h)) [] []
          (nonMLKeys (h ++ kbd.map (getKey h)) (List.range' h.length kbd.length) mlids)
          ((List.range' h.length kbd.length).filter (fun i => mlids.contains i)) with
      | error e => simp only [hml, hd, hw] at hrun; exact Except.noConfusion hrun
      | ok r1 =>
        obtain ⟨hw1, maxes, goffs, qmk1⟩ := r1
        simp only [hw] at hrun
        cases hrc : reconcileLoop hw1 maxes d qmk1
            ((List.range' h.length kbd.length).filter (fun i => mlids.contains i)) with
        | error e => simp only [hml, hd, hw, hrc] at hrun; exact Except.noConfusion hrun
        | ok r2 =>
          obtain ⟨d2, qmk2⟩ := r2
          simp only [hrc] at hrun
          cases hmin : min_x_y hw1 qmk2 with
          | error e => simp only [hml, hd, hw, hrc, hmin] at hrun; exact Except.noConfusion hrun
          | ok p =>
            obtain ⟨xo, yo⟩ := p
            simp only [hmin] at hrun
            have hpair := Except.ok.inj hrun
            have hh' : h' = normalizePass hw1 qmk2 xo yo :=
              (congrArg (fun r => r.1) hpair).symm
            have hids : ids = sort_keys (normalizePass hw1 qmk2 xo yo) qmk2 :=
              (congrArg (fun r => r.2) hpair).symm
            -- id provenance
            have hkbd1 : ∀ i ∈ List.range' h.length kbd.length, h.length ≤ i :=
              fun i hi => mem_range'_ge _ _ _ hi
            have hmlsub : ∀ i ∈ mlids, h.length ≤ i := by
              intro i hi
              exact hkbd1 i (get_multilayout_keys_subset _ _ _ hml i hi)
            have hmliter : ∀ i ∈ (List.range' h.length kbd.length).filter
                (fun i => mlids.contains i), h.length ≤ i := by
              intro i hi
              exact hkbd1 i (List.mem_filter.mp hi).1
            have hqmk0 : ∀ i ∈ nonMLKeys (h ++ kbd.map (getKey h))
                (List.range' h.length kbd.length) mlids, h.length ≤ i := by
              intro i hi
              unfold nonMLKeys at hi
              exact hkbd1 i (List.mem_filter.mp (List.mem_filter.mp hi).1).1
            obtain ⟨hevW, app1, hq1, hsub1⟩ :=
              winnerLoop_frame d _ _ _ _ _ _ _ _ _ hw
            obtain ⟨app2, hq2, hsub2⟩ := reconcileLoop_append _ _ _ _ _ _ _ hrc
            have hqmk2 : ∀ i ∈ qmk2, h.length ≤ i := by
              intro i hi
              rw [hq2, hq1] at hi
              rcases List.mem_append.mp hi with hi' | hi'
              · rcases List.mem_append.mp hi' with hi'' | hi''
                · exact hqmk0 i hi''
                · exact hmliter i (hsub1 i hi'')
              · exact hmliter i (hsub2 i hi')
            have hevN := normalizePass_evolves qmk2 hw1 xo yo
            constructor
            · intro j hj
              have hjm : j ∉ (List.range' h.length kbd.length).filter
                  (fun i => mlids.contains i) := by
                intro hjin
                exact absurd hj (Nat.not_lt.mpr (hmliter j hjin))
              have hjq : j ∉ qmk2 := by
                intro hjin
                exact absurd hj (Nat.not_lt.mpr (hqmk2 j hjin))
              rw [hh']
              rw [hevN.2.1 j hjq, hevW.2.1 j hjm, getKey_append_left h _ j hj]
            · intro i hi
              rw [hids] at hi
              rw [mem_sort_keys] at hi
              exact hqmk2 i hi

/-- C8 witness: `get_layout_all` on `hC6` succeeds with the heap extended by
the two copies and the output naming only copy ids (≥ 2). -/
theorem C8_witness :
    (∀ j, j < hC6.length → getKey (hC6 ++ hC6) j = getKey hC6 j) ∧
    ∀ i ∈ ([2, 3, 3] : List Nat), hC6.length ≤ i :=
  C8_no_caller_mutation hC6 [0, 1] (hC6 ++ hC6) [2, 3, 3] (by decide)

/-! ### Claim C10: matrix labels are mandatory for default synthesis only -/

theorem extract_row_col_ok_numeric (k : Key) (rc : Nat × Nat)
    (hx : extract_row_col k = Except.ok rc) :
    pyIsNumeric (lbl k 9) = true ∧ pyIsNumeric (lbl k 11) = true := by
  unfold extract_row_col at hx
  by_cases hnum : pyIsNumeric (lbl k 9) && pyIsNumeric (lbl k 11)
  · exact Bool.and_eq_true_iff.mp hnum
  · rw [if_neg hnum] at hx
    exact Except.noConfusion hx

theorem extract_row_col_labels_eq (k k' : Key) (hl : k'.labels = k.labels) :
    extract_row_col k' = extract_row_col k := by
  unfold extract_row_col lbl
  rw [hl]

theorem reconcileLoop_extracts (h : Heap) (maxes : List (Nat × Nat)) :
    ∀ (ids : List Nat) (d : MLDict) (qmk : List Nat) (d' : MLDict) (qmk' : List Nat),
      reconcileLoop h maxes d qmk ids = Except.ok (d', qmk') →
      ∀ x ∈ ids, ∃ rc, extract_row_col (getKey h x) = Except.ok rc := by
  intro ids
  induction ids with
  | nil =>
    intro d qmk d' qmk' _ x hx
    simp at hx
  | cons i rest ih =>
    intro d qmk d' qmk' hrun x hx
    cases hex : extract_ml_val_ndx (getKey h i) with
    | error e => simp [reconcileLoop, hex] at hrun
    | ok p =>
      obtain ⟨mlv, mln⟩ := p
      cases hmax : alGet maxes mlv with
      | none => simp [reconcileLoop, hex, hmax] at hrun
      | some max_val =>
        cases hvals : alGet d mlv with
        | none => simp [reconcileLoop, hex, hmax, hvals] at hrun
        | some vals =>
          cases hbkt : alGet vals max_val with
          | none => simp [reconcileLoop, hex, hmax, hvals, hbkt] at hrun
          | some bucket =>
            cases hco : coordsOfBucket h bucket with
            | error e => simp [reconcileLoop, hex, hmax, hvals, hbkt, hco] at hrun
            | ok matrix_list =>
              cases hrcx : extract_row_col (getKey h i) with
              | error e => simp [reconcileLoop, hex, hmax, hvals, hbkt, hco, hrcx] at hrun
              | ok rc =>
                rcases List.mem_cons.mp hx with heq | hmem
                · exact heq ▸ ⟨rc, hrcx⟩
                · by_cases hmem2 : rc ∈ matrix_list
                  · have hrun' : reconcileLoop h maxes d qmk rest = Except.ok (d', qmk') := by
                      simpa [reconcileLoop, hex, hmax, hvals, hbkt, hco, hrcx, hmem2] using hrun
                    exact ih _ _ _ _ hrun' x hmem
                  · have hrun' : reconcileLoop h maxes
                        (alSet d mlv (alSet vals max_val (bucket ++ [i]))) (qmk ++ [i]) rest =
                        Except.ok (d', qmk') := by
                      simpa [reconcileLoop, hex, hmax, hvals, hbkt, hco, hrcx, hmem2] using hrun
                    exact ih _ _ _ _ hrun' x hmem

theorem get_multilayout_keys_mem (h : Heap) :
    ∀ (l ml : List Nat), get_multilayout_keys h l = Except.ok ml →
      ∀ i ∈ l, (!(lbl (getKey h i) 3).isEmpty || !(lbl (getKey h i) 5).isEmpty) = true →
      i ∈ ml := by
  intro l
  induction l with
  | nil =>
    intro ml _ i hi _
    simp at hi
  | cons j rest ih =>
    intro ml hml i hi hcond
    simp only [get_multilayout_keys] at hml
    by_cases hcase : !(lbl (getKey h j) 3).isEmpty || !(lbl (getKey h j) 5).isEmpty
    · rw [if_pos hcase] at hml
      cases hex : extract_ml_val_ndx (getKey h j) with
      | error e => rw [hex] at hml; exact Except.noConfusion hml
      | ok p =>
        rw [hex] at hml
        cases hrest : get_multilayout_keys h rest with
        | error e => rw [hrest] at hml; exact Except.noConfusion hml
        | ok l' =>
          rw [hrest] at hml
          have hl' := Except.ok.inj hml
          subst hl'
          rcases List.mem_cons.mp hi with heq | hmem
          · exact heq ▸ List.mem_cons_self _ _
          · exact List.mem_cons_of_mem _ (ih _ hrest i hmem hcond)
    · rw [if_neg hcase] at hml
      rcases List.mem_cons.mp hi with heq | hmem
      · exact absurd (heq ▸ hcond) hcase
      · exact ih _ hml i hmem hcond

theorem getKey_copy (h : Heap) (kbd : List Nat) (p : Nat) (hp : p < kbd.length) :
    getKey (h ++ kbd.map (getKey h)) (h.length + p) = getKey h (kbd.getD p 0) := by
  unfold getKey
  rw [List.getD_append_right _ _ _ _ (Nat.le_add_right _ _), Nat.add_sub_cancel_left,
    List.getD_eq_getElem?_getD, List.getElem?_map, List.getElem?_eq_getElem (by simpa using hp)]
  have hgd : kbd.getD p 0 = kbd[p] := by
    rw [List.getD_eq_getElem?_getD, List.getElem?_eq_getElem hp]
    rfl
  rw [hgd]
  simp [getKey, List.getD_eq_getElem?_getD]

/-- C10: the reconciliation pass of `get_layout_all` reads the matrix labels
of every multilayout key (and of every winner-bucket key), so default
synthesis can only succeed when every multilayout key carries numeric row and
column labels; `get_specific_layout` imposes no such requirement, witnessed by
the keyboard `hC10` whose single multilayout key has no matrix labels:
specific resolution succeeds while `get_layout_all` raises
MalformedMatrixLabel. -/
theorem C10_matrix_label_requirement :
    (∀ (h : Heap) (kbd : List Nat) (h' : Heap) (ids : List Nat),
      get_layout_all h kbd = Except.ok (h', ids) →
      ∀ p, p < kbd.length →
        (!(lbl (getKey h (kbd.getD p 0)) 3).isEmpty ||
          !(lbl (getKey h (kbd.getD p 0)) 5).isEmpty) = true →
        pyIsNumeric (lbl (getKey h (kbd.getD p 0)) 9) = true ∧
        pyIsNumeric (lbl (getKey h (kbd.getD p 0)) 11) = true) ∧
    ((get_specific_layout hC10 [0] [0]).isOk = true ∧
      get_layout_all hC10 [0] = Except.error Err.malformedMatrix) := by
  constructor
  · intro h kbd h' ids hrun p hp hcond
    simp only [get_layout_all, deepcopyKeys] at hrun
    cases hml : get_multilayout_keys (h ++ kbd.map (getKey h))
        (List.range' h.length kbd.length) with
    | error e => simp only [hml] at hrun; exact Except.noConfusion hrun
    | ok mlids =>
      simp only [hml] at hrun
      cases hd : buildMLDict (h ++ kbd.map (getKey h))
          ((List.range' h.length kbd.length).filter (fun i => mlids.contains i)) [] with
      | error e => simp only [hd] at hrun; exact Except.noConfusion hrun
      | ok d =>
        simp only [hd] at hrun
        cases hw : winnerLoop d (h ++ kbd.map (getKey h)) [] []
            (nonMLKeys (h ++ kbd.map (getKey h)) (List.range' h.length kbd.length) mlids)
            ((List.range' h.length kbd.length).filter (fun i => mlids.contains i)) with
        | error e => simp only [hw] at hrun; exact Except.noConfusion hrun
        | ok r1 =>
          obtain ⟨hw1, maxes, goffs, qmk1⟩ := r1
          simp only [hw] at hrun
          cases hrc : reconcileLoop hw1 maxes d qmk1
              ((List.range' h.length kbd.length).filter (fun i => mlids.contains i)) with
          | error e => simp only [hrc] at hrun; exact Except.noConfusion hrun
          | ok r2 =>
            have hkey : getKey (h ++ kbd.map (getKey h)) (h.length + p) =
                getKey h (kbd.getD p 0) := getKey_copy h kbd p hp
            have hcmem : h.length + p ∈ List.range' h.length kbd.length :=
              List.mem_range'_1.mpr ⟨Nat.le_add_right _ _, by omega⟩
            have hcml : h.length + p ∈ mlids := by
              apply get_multilayout_keys_mem _ _ _ hml _ hcmem
              rw [hkey]
              exact hcond
            have hciter : h.length + p ∈
                (List.range' h.length kbd.length).filter (fun i => mlids.contains i) :=
              List.mem_filter.mpr ⟨hcmem, contains_true_of_mem _ _ hcml⟩
            obtain ⟨rc, hrcx⟩ := by
              obtain ⟨d2, qmk2⟩ := r2
              exact reconcileLoop_extracts hw1 maxes _ _ _ _ _ hrc _ hciter
            have hlbl : (getKey hw1 (h.length + p)).labels =
                (getKey (h ++ kbd.map (getKey h)) (h.length + p)).labels :=
              (winnerLoop_frame d _ _ _ _ _ _ _ _ _ hw).1.2.2 (h.length + p)
            rw [extract_row_col_labels_eq _ _ hlbl, hkey] at hrcx
            exact extract_row_col_ok_numeric _ _ hrcx
  · exact ⟨by decide, by decide⟩

/-- C10 witness: the general requirement applied to `hC6` (whose
`get_layout_all` run succeeds): its first key, a multilayout key, must have
numeric row and column labels. -/
theorem C10_witness :
    pyIsNumeric (lbl (getKey hC6 (([0, 1] : List Nat).getD 0 0)) 9) = true ∧
    pyIsNumeric (lbl (getKey hC6 (([0, 1] : List Nat).getD 0 0)) 11) = true :=
  C10_matrix_label_requirement.1 hC6 [0, 1] (hC6 ++ hC6) [2, 3, 3] (by decide) 0
    (by decide) (by decide)

/-! ### Claim C9 -/

/-- C9: `get_alternate_layouts` resolves each choice list against the same
keyboard without copying, and `get_specific_layout` mutates key coordinates in
place.  On `hC9`, resolving the identical choice list `[1]` twice in sequence
returns different key lists (the snapshot of each call's resulting key values
differs), and `get_alternate_layouts` performs exactly this sequence. -/
theorem C9_sequential_mutation :
    (get_specific_layout hC9 [0, 1, 2] [1]).toOption.map (fun p => p.2.map (getKey p.1)) ≠
      ((get_specific_layout hC9 [0, 1, 2] [1]).toOption.bind
        (fun p => (get_specific_layout p.1 [0, 1, 2] [1]).toOption)).map
          (fun q => q.2.map (getKey q.1)) ∧
    ((get_specific_layout hC9 [0, 1, 2] [1]).toOption.bind
        (fun p => (get_specific_layout p.1 [0, 1, 2] [1]).toOption)).isSome = true ∧
    (get_alternate_layouts [0, 1, 2] hC9 [("a", [1]), ("b", [1])]).toOption.map
        (fun p => p.2) = some [("a", [2, 0]), ("b", [0, 2])] := by
  refine ⟨by decide, by decide, by decide⟩

end Layouts
